import Mathlib

/-!
Verification development for the `better-process-manager` supervisor.

Shallow embedding of the parts of the source that the checked properties
talk about:

* `src/communication/common.rs` — payload encoding, `MessageChunk`;
* `src/communication/server.rs` — `send_response`, the command handlers,
  the monitor loop's health-check step;
* `src/communication/client.rs` — `request_server` reply reassembly;
* `src/process_manager/registry.rs` — `ProcessInfo`, `ProcessRegistry`
  operations, `parse_duration_str`;
* `src/config/read_config.rs` — `parse_duration`;
* `src/logging/mod.rs` — `LogManager::maybe_rotate`.

Rust byte slices / strings are modelled as `List Nat` (their bytes) or
`List Char` (their characters); `HashMap<String, ProcessInfo>` as an
association list keyed by name; fallible operations return `Option` /
`Except`.  Machine integers are modelled as `Nat` (the code never relies
on wrap-around: the only width-sensitive spot is `u64` parsing, modelled
with an explicit `< 2^64` bound).
-/

namespace BPM

/-! ## Constants (src/communication/common.rs lines 7-12) -/

/-- `MAX_PAYLOAD_SIZE` from common.rs. -/
def MAX_PAYLOAD_SIZE : Nat := 4096

/-- `CHUNK_METADATA_SIZE`: `size_of::<u128>() + size_of::<u32>() +
`size_of::<bool>() + size_of::<u32>()` = 16 + 4 + 1 + 4. -/
def CHUNK_METADATA_SIZE : Nat := 16 + 4 + 1 + 4

/-- `CHUNK_PAYLOAD_CAPACITY = MAX_PAYLOAD_SIZE - CHUNK_METADATA_SIZE` (4071);
the spec's `CAP`. -/
def CHUNK_PAYLOAD_CAPACITY : Nat := MAX_PAYLOAD_SIZE - CHUNK_METADATA_SIZE

/-! ## Payload encode / decode (common.rs lines 33-47)

A Rust `&str` is a sequence of UTF-8 bytes; both functions below work
byte-wise, so strings are modelled as their byte lists.  `decode_payload`
additionally re-validates UTF-8 (`str::from_utf8`); on the byte level the
bytes it yields are exactly the bytes before the first zero. -/

/-- `Command::encode_payload`: a zero-filled `CAP`-byte buffer whose first
`min (len input) CAP` bytes are copied from `input`. -/
def encode_payload (input : List Nat) : List Nat :=
  input.take CHUNK_PAYLOAD_CAPACITY ++
    List.replicate (CHUNK_PAYLOAD_CAPACITY - min input.length CHUNK_PAYLOAD_CAPACITY) 0

/-- `Command::decode_payload` at the byte level: the bytes strictly before
the first zero byte (all of `payload` when no zero occurs). -/
def decode_payload (payload : List Nat) : List Nat :=
  payload.takeWhile (fun b => b ≠ 0)

/-! ## Message chunks and server-side framing (common.rs lines 86-131,
server.rs `send_response` lines 512-549) -/

/-- `MessageChunk` from common.rs (the `u128` request-id header word is
transport metadata outside the struct's fields). -/
structure MessageChunk where
  sequence_number : Nat
  is_last : Bool
  used_payload_size : Nat
  payload : List Nat
  deriving Repr, DecidableEq

/-- `MessageChunk::new` (the `ChunkPayload` impl): pads the payload with
zeroes to the `CHUNK_PAYLOAD_CAPACITY`-sized array. -/
def MessageChunk.new (sequence_number : Nat) (is_last : Bool)
    (used_payload_size : Nat) (payload : List Nat) : MessageChunk :=
  ⟨sequence_number, is_last, used_payload_size,
    payload ++ List.replicate (CHUNK_PAYLOAD_CAPACITY - payload.length) 0⟩

/-- Recursion core of `chunksOf`, structurally recursive on a fuel that
the wrapper seeds with the list's length (one chunk consumes at least one
element whenever `0 < cap`, so the fuel never runs out). -/
def chunksOfGo (cap : Nat) : Nat → List Nat → List (List Nat)
  | _, [] => []
  | 0, _ :: _ => []
  | fuel + 1, x :: xs => (x :: xs).take cap :: chunksOfGo cap fuel ((x :: xs).drop cap)

/-- Rust's `slice::chunks(cap)`: split into consecutive pieces of `cap`
elements, the final piece possibly shorter; the empty slice yields no
pieces.  (`chunks(0)` panics in Rust; the guard returns `[]`, and every
use below instantiates `cap` with the non-zero `CHUNK_PAYLOAD_CAPACITY`.) -/
def chunksOf (cap : Nat) (l : List Nat) : List (List Nat) :=
  if cap = 0 then [] else chunksOfGo cap l.length l

theorem chunksOfGo_nil (cap f : Nat) : chunksOfGo cap f [] = [] := by
  cases f <;> rfl

theorem chunksOfGo_fuel (cap : Nat) (hcap : cap ≠ 0) :
    ∀ (f₁ f₂ : Nat) (l : List Nat), l.length ≤ f₁ → l.length ≤ f₂ →
      chunksOfGo cap f₁ l = chunksOfGo cap f₂ l := by
  intro f₁
  induction f₁ using Nat.strong_induction_on with
  | _ f₁ ih =>
    intro f₂ l h₁ h₂
    match f₁, f₂, l with
    | f₁, f₂, [] => rw [chunksOfGo_nil, chunksOfGo_nil]
    | 0, _, x :: xs => simp at h₁
    | _ + 1, 0, x :: xs => simp at h₂
    | g₁ + 1, g₂ + 1, x :: xs =>
      simp only [chunksOfGo]
      congr 1
      have hb : (x :: xs).length = xs.length + 1 := rfl
      have hcap' : 1 ≤ cap := Nat.one_le_iff_ne_zero.mpr hcap
      have hlen : ((x :: xs).drop cap).length ≤ xs.length := by
        rw [List.length_drop, hb]
        omega
      have hg₁ : xs.length ≤ g₁ := by rw [hb] at h₁; omega
      have hg₂ : xs.length ≤ g₂ := by rw [hb] at h₂; omega
      exact ih g₁ (Nat.lt_succ_self g₁) g₂ ((x :: xs).drop cap)
        (Nat.le_trans hlen hg₁) (Nat.le_trans hlen hg₂)

theorem chunksOf_nil (cap : Nat) : chunksOf cap [] = [] := by
  unfold chunksOf
  cases cap <;> rfl

/-- The characteristic unfolding of `chunksOf` on a non-empty list. -/
theorem chunksOf_cons (cap : Nat) (l : List Nat) (hcap : cap ≠ 0) (hl : l ≠ []) :
    chunksOf cap l = l.take cap :: chunksOf cap (l.drop cap) := by
  match l with
  | [] => exact absurd rfl hl
  | x :: xs =>
    unfold chunksOf
    rw [if_neg hcap, if_neg hcap]
    simp only [List.length_cons, chunksOfGo]
    congr 1
    apply chunksOfGo_fuel cap hcap
    · rw [List.length_drop]
      have hb : (x :: xs).length = xs.length + 1 := rfl
      rw [hb]
      have hcap' : 1 ≤ cap := Nat.one_le_iff_ne_zero.mpr hcap
      omega
    · exact Nat.le_refl _

/-- The `while let Some(chunk_data) = chunks.next()` loop of
`send_response`: `seq_num` counts up from the given seed, and
`is_last_chunk = chunks.peek().is_none()`. -/
def sendChunks (seq : Nat) : List (List Nat) → List MessageChunk
  | [] => []
  | d :: rest =>
      MessageChunk.new seq rest.isEmpty d.length d :: sendChunks (seq + 1) rest

/-- `send_response(request, response_data, chunk_capacity)` restricted to
its framing effect: the sequence of chunks passed to `request.send_copy`,
in transmission order. -/
def send_response (response_data : List Nat) (chunk_capacity : Nat) :
    List MessageChunk :=
  sendChunks 0 (chunksOf chunk_capacity response_data)

/-! ## Client-side reassembly (client.rs `request_server` lines 164-218)

The client inserts each received chunk's `payload[..used_payload_size]`
into a `BTreeMap` keyed by `sequence_number` and stops as soon as it has
seen a chunk with `is_last`; it then concatenates the stored slices in
increasing key order.  The `BTreeMap` is modelled as an association list
sorted by key, with insertion replacing an equal key. -/

/-- `BTreeMap::insert` on a key-sorted association list. -/
def btInsert (k : Nat) (v : List Nat) :
    List (Nat × List Nat) → List (Nat × List Nat)
  | [] => [(k, v)]
  | (k', v') :: rest =>
      if k < k' then (k, v) :: (k', v') :: rest
      else if k = k' then (k, v) :: rest
      else (k', v') :: btInsert k v rest

/-- The slice of a chunk the client stores: `chunk.payload[..chunk.used_payload_size]`. -/
def chunkData (c : MessageChunk) : List Nat :=
  c.payload.take c.used_payload_size

/-- The client's receive loop over the sequence of chunks it observes, in
observation order: insert each into the map and stop at the first chunk
whose `is_last` is set; if the observed sequence ends without an
`is_last` chunk the loop times out (`none`). -/
def collectLoop : List MessageChunk → List (Nat × List Nat) →
    Option (List (Nat × List Nat))
  | [], _ => none
  | c :: rest, m =>
      let m' := btInsert c.sequence_number (chunkData c) m
      if c.is_last then some m' else collectLoop rest m'

/-- `request_server` restricted to reply reassembly: given the chunks in
observation order, the reconstructed reply body (`none` models the
TimedOut error). -/
def request_server (observed : List MessageChunk) : Option (List Nat) :=
  (collectLoop observed []).map (fun m => (m.map Prod.snd).flatten)

/-! ## Properties of the chunk split -/

theorem chunksOf_flatten (cap : Nat) (hcap : cap ≠ 0) (l : List Nat) :
    (chunksOf cap l).flatten = l := by
  suffices H : ∀ (n : Nat) (l : List Nat), l.length ≤ n → (chunksOf cap l).flatten = l from
    H l.length l (Nat.le_refl _)
  intro n
  induction n with
  | zero =>
    intro l hl
    have : l = [] := List.eq_nil_of_length_eq_zero (Nat.le_zero.mp hl)
    rw [this, chunksOf_nil]; rfl
  | succ n ih =>
    intro l hl
    match l with
    | [] => rw [chunksOf_nil]; rfl
    | x :: xs =>
      rw [chunksOf_cons cap (x :: xs) hcap (by simp)]
      have hb : (x :: xs).length = xs.length + 1 := rfl
      have hcap' : 1 ≤ cap := Nat.one_le_iff_ne_zero.mpr hcap
      have hdrop : ((x :: xs).drop cap).length ≤ n := by
        rw [List.length_drop, hb]
        rw [hb] at hl
        omega
      rw [List.flatten_cons, ih _ hdrop, List.take_append_drop]

theorem chunksOf_length (cap : Nat) (hcap : cap ≠ 0) (l : List Nat) :
    (chunksOf cap l).length = (l.length + cap - 1) / cap := by
  suffices H : ∀ (n : Nat) (l : List Nat), l.length ≤ n →
      (chunksOf cap l).length = (l.length + cap - 1) / cap from
    H l.length l (Nat.le_refl _)
  have hcap' : 1 ≤ cap := Nat.one_le_iff_ne_zero.mpr hcap
  intro n
  induction n with
  | zero =>
    intro l hl
    have : l = [] := List.eq_nil_of_length_eq_zero (Nat.le_zero.mp hl)
    rw [this, chunksOf_nil]
    simp only [List.length_nil]
    rw [Nat.zero_add, Nat.div_eq_of_lt (by omega)]
  | succ n ih =>
    intro l hl
    match l with
    | [] =>
      rw [chunksOf_nil]
      simp only [List.length_nil]
      rw [Nat.zero_add, Nat.div_eq_of_lt (by omega)]
    | x :: xs =>
      have hb : (x :: xs).length = xs.length + 1 := rfl
      rw [chunksOf_cons cap (x :: xs) hcap (by simp)]
      have hdrop : ((x :: xs).drop cap).length ≤ n := by
        rw [List.length_drop, hb]
        rw [hb] at hl
        omega
      rw [List.length_cons, ih _ hdrop, List.length_drop, hb]
      rcases Nat.le_total (xs.length + 1) cap with hle | hle
      · have hA : xs.length + 1 - cap + cap - 1 = cap - 1 := by omega
        have h1 : xs.length + 1 + cap - 1 = xs.length + cap := by omega
        have h2 : (xs.length + cap) / cap = xs.length / cap + 1 :=
          Nat.add_div_right _ (by omega)
        have h3 : xs.length / cap = 0 := Nat.div_eq_of_lt (by omega)
        have h4 : (cap - 1) / cap = 0 := Nat.div_eq_of_lt (by omega)
        rw [hA, h1, h2, h3, h4]
      · have h1 : xs.length + 1 - cap + cap - 1 = xs.length := by omega
        have h2 : xs.length + 1 + cap - 1 = xs.length + cap := by omega
        rw [h1, h2, Nat.add_div_right _ (by omega)]

theorem chunksOf_mem_length (cap : Nat) (l : List Nat) (d : List Nat)
    (hd : d ∈ chunksOf cap l) : d.length ≤ cap := by
  by_cases hcap : cap = 0
  · rw [hcap] at hd
    unfold chunksOf at hd
    simp at hd
  suffices H : ∀ (n : Nat) (l : List Nat), l.length ≤ n →
      ∀ d ∈ chunksOf cap l, d.length ≤ cap from
    H l.length l (Nat.le_refl _) d hd
  have hcap' : 1 ≤ cap := Nat.one_le_iff_ne_zero.mpr hcap
  intro n
  induction n with
  | zero =>
    intro l hl d' hd'
    have : l = [] := List.eq_nil_of_length_eq_zero (Nat.le_zero.mp hl)
    rw [this, chunksOf_nil] at hd'
    cases hd'
  | succ n ih =>
    intro l hl d' hd'
    match l with
    | [] => rw [chunksOf_nil] at hd'; cases hd'
    | x :: xs =>
      rw [chunksOf_cons cap (x :: xs) hcap (by simp)] at hd'
      rcases List.mem_cons.mp hd' with h | h
      · subst h
        rw [List.length_take]
        exact Nat.min_le_left _ _
      · have hb : (x :: xs).length = xs.length + 1 := rfl
        have hdrop : ((x :: xs).drop cap).length ≤ n := by
          rw [List.length_drop, hb]
          rw [hb] at hl
          omega
        exact ih _ hdrop _ h

theorem chunksOf_ne_nil (cap : Nat) (hcap : cap ≠ 0) (l : List Nat) (hl : l ≠ []) :
    chunksOf cap l ≠ [] := by
  rw [chunksOf_cons cap l hcap hl]
  exact List.cons_ne_nil _ _

/-! ## Properties of the transmitted chunk sequence -/

/-- The data slice the client extracts from a chunk built by the server is
exactly the chunk's piece of the reply body: `used_payload_size` equals the
piece's length, so the zero padding is cut away again. -/
theorem chunkData_new (seq : Nat) (last : Bool) (d : List Nat) :
    chunkData (MessageChunk.new seq last d.length d) = d := by
  unfold chunkData MessageChunk.new
  exact List.take_left d _

theorem sendChunks_length (s : Nat) (ds : List (List Nat)) :
    (sendChunks s ds).length = ds.length := by
  induction ds generalizing s with
  | nil => rfl
  | cons d rest ih => simp [sendChunks, ih]

/-- The key/value pairs the client would store for the transmitted chunks:
consecutive sequence numbers from `s` paired with the body pieces. -/
def seqPairs (s : Nat) : List (List Nat) → List (Nat × List Nat)
  | [] => []
  | d :: rest => (s, d) :: seqPairs (s + 1) rest

theorem sendChunks_map_kv (s : Nat) (ds : List (List Nat)) :
    (sendChunks s ds).map (fun c => (c.sequence_number, chunkData c)) = seqPairs s ds := by
  induction ds generalizing s with
  | nil => rfl
  | cons d rest ih =>
    simp only [sendChunks, List.map_cons, seqPairs, ih]
    congr 1
    rw [chunkData_new]
    rfl

theorem seqPairs_map_fst (s : Nat) (ds : List (List Nat)) :
    (seqPairs s ds).map Prod.fst = List.range' s ds.length := by
  induction ds generalizing s with
  | nil => rfl
  | cons d rest ih => simp [seqPairs, List.range', ih]

theorem seqPairs_map_snd (s : Nat) (ds : List (List Nat)) :
    (seqPairs s ds).map Prod.snd = ds := by
  induction ds generalizing s with
  | nil => rfl
  | cons d rest ih => simp [seqPairs, ih]

theorem seqPairs_fst_ge (s : Nat) (ds : List (List Nat)) :
    ∀ x ∈ seqPairs s ds, s ≤ x.1 := by
  induction ds generalizing s with
  | nil => intro x hx; cases hx
  | cons d rest ih =>
    intro x hx
    rcases List.mem_cons.mp hx with h | h
    · subst h; exact Nat.le_refl _
    · exact Nat.le_trans (Nat.le_succ s) (ih (s + 1) x h)

theorem seqPairs_pairwise (s : Nat) (ds : List (List Nat)) :
    List.Pairwise (fun a b : Nat × List Nat => a.1 < b.1) (seqPairs s ds) := by
  induction ds generalizing s with
  | nil => exact List.Pairwise.nil
  | cons d rest ih =>
    refine List.Pairwise.cons ?_ (ih (s + 1))
    intro x hx
    exact Nat.lt_of_lt_of_le (Nat.lt_succ_self s) (seqPairs_fst_ge (s + 1) rest x hx)

/-- Every chunk before the final one is transmitted with `is_last = false`. -/
theorem sendChunks_dropLast_not_last (s : Nat) (ds : List (List Nat)) :
    ∀ c ∈ (sendChunks s ds).dropLast, c.is_last = false := by
  induction ds generalizing s with
  | nil => intro c hc; cases hc
  | cons d rest ih =>
    intro c hc
    match rest with
    | [] => cases hc
    | d' :: rest' =>
      simp only [sendChunks] at hc
      rw [List.dropLast_cons_of_ne_nil (by simp [sendChunks])] at hc
      rcases List.mem_cons.mp hc with h | h
      · subst h; rfl
      · exact ih (s + 1) c h

/-- Some transmitted chunk carries `is_last = true` (the final one). -/
theorem sendChunks_exists_last (s : Nat) (ds : List (List Nat)) (hds : ds ≠ []) :
    ∃ c ∈ sendChunks s ds, c.is_last = true := by
  induction ds generalizing s with
  | nil => exact absurd rfl hds
  | cons d rest ih =>
    match rest with
    | [] => exact ⟨MessageChunk.new s true d.length d, by simp [sendChunks], rfl⟩
    | d' :: rest' =>
      obtain ⟨c, hc, hlast⟩ := ih (s + 1) (by simp)
      refine ⟨c, ?_, hlast⟩
      simp only [sendChunks]
      exact List.mem_cons_of_mem _ hc

theorem sendChunks_ne_nil (s : Nat) (ds : List (List Nat)) (hds : ds ≠ []) :
    sendChunks s ds ≠ [] := by
  match ds with
  | [] => exact absurd rfl hds
  | d :: rest => simp [sendChunks]

theorem sendChunks_used_le (s : Nat) (ds : List (List Nat)) (cap : Nat)
    (hds : ∀ d ∈ ds, d.length ≤ cap) :
    ∀ c ∈ sendChunks s ds, c.used_payload_size ≤ cap := by
  induction ds generalizing s with
  | nil => intro c hc; cases hc
  | cons d rest ih =>
    intro c hc
    simp only [sendChunks] at hc
    rcases List.mem_cons.mp hc with h | h
    · subst h
      exact hds d (List.mem_cons_self _ _)
    · exact ih (s + 1) (fun d' hd' => hds d' (List.mem_cons_of_mem _ hd')) c h

theorem sendChunks_seq (s : Nat) (ds : List (List Nat)) :
    ∀ (i : Nat) (h : i < (sendChunks s ds).length),
      ((sendChunks s ds).get ⟨i, h⟩).sequence_number = s + i := by
  induction ds generalizing s with
  | nil => intro i h; simp [sendChunks] at h
  | cons d rest ih =>
    intro i h
    match i with
    | 0 => rfl
    | j + 1 =>
      have hj : j < (sendChunks (s + 1) rest).length := by
        have : (sendChunks s (d :: rest)).length = (sendChunks (s + 1) rest).length + 1 := by
          simp [sendChunks]
        omega
      have := ih (s + 1) j hj
      simp only [sendChunks, List.get_cons_succ]
      rw [this]
      omega

theorem sendChunks_is_last_iff (s : Nat) (ds : List (List Nat)) :
    ∀ (i : Nat) (h : i < (sendChunks s ds).length),
      (((sendChunks s ds).get ⟨i, h⟩).is_last = true ↔ i = ds.length - 1) := by
  induction ds generalizing s with
  | nil => intro i h; simp [sendChunks] at h
  | cons d rest ih =>
    intro i h
    match i with
    | 0 =>
      show (rest.isEmpty = true ↔ 0 = (d :: rest).length - 1)
      rw [List.isEmpty_iff, List.length_cons]
      constructor
      · intro hr; rw [hr]; rfl
      · intro hr
        have : rest.length = 0 := by omega
        exact List.eq_nil_of_length_eq_zero this
    | j + 1 =>
      have hj : j < (sendChunks (s + 1) rest).length := by
        have : (sendChunks s (d :: rest)).length = (sendChunks (s + 1) rest).length + 1 := by
          simp [sendChunks]
        omega
      have hrest : 0 < rest.length := by
        rw [sendChunks_length] at hj
        omega
      have := ih (s + 1) j hj
      simp only [sendChunks, List.get_cons_succ]
      rw [this, List.length_cons]
      omega

/-! ## Properties of the client's `BTreeMap` reassembly -/

/-- The key set of the modelled `BTreeMap`. -/
def keysOf (m : List (Nat × List Nat)) : List Nat := m.map Prod.fst

theorem mem_btInsert (k : Nat) (v : List Nat) (m : List (Nat × List Nat)) :
    ∀ x ∈ btInsert k v m, x = (k, v) ∨ x ∈ m := by
  induction m with
  | nil => intro x hx; simpa [btInsert] using hx
  | cons p rest ih =>
    intro x hx
    unfold btInsert at hx
    by_cases h1 : k < p.1
    · simp only [if_pos h1] at hx
      rcases List.mem_cons.mp hx with h | h
      · exact Or.inl h
      · exact Or.inr h
    · rw [if_neg h1] at hx
      by_cases h2 : k = p.1
      · rw [if_pos h2] at hx
        rcases List.mem_cons.mp hx with h | h
        · exact Or.inl h
        · exact Or.inr (List.mem_cons_of_mem _ h)
      · rw [if_neg h2] at hx
        rcases List.mem_cons.mp hx with h | h
        · exact Or.inr (h ▸ List.mem_cons_self _ _)
        · rcases ih x h with h' | h'
          · exact Or.inl h'
          · exact Or.inr (List.mem_cons_of_mem _ h')

/-- Inserting a fresh key is, up to order, just adding the pair. -/
theorem btInsert_perm (k : Nat) (v : List Nat) (m : List (Nat × List Nat))
    (hk : k ∉ keysOf m) : (btInsert k v m).Perm ((k, v) :: m) := by
  induction m with
  | nil => exact List.Perm.refl _
  | cons p rest ih =>
    unfold btInsert
    by_cases h1 : k < p.1
    · rw [if_pos h1]
    · rw [if_neg h1]
      have hk1 : k ≠ p.1 := fun h => hk (h ▸ List.mem_map_of_mem Prod.fst (List.mem_cons_self _ _))
      rw [if_neg hk1]
      have hk' : k ∉ keysOf rest := fun h => hk (List.mem_cons_of_mem _ h)
      exact (List.Perm.cons p (ih hk')).trans (List.Perm.swap (k, v) p rest)

/-- Insertion keeps the map sorted by key. -/
theorem btInsert_pairwise (k : Nat) (v : List Nat) (m : List (Nat × List Nat))
    (hm : List.Pairwise (fun a b : Nat × List Nat => a.1 < b.1) m) :
    List.Pairwise (fun a b : Nat × List Nat => a.1 < b.1) (btInsert k v m) := by
  induction m with
  | nil => simp [btInsert]
  | cons p rest ih =>
    rcases List.pairwise_cons.mp hm with ⟨hp, hrest⟩
    unfold btInsert
    by_cases h1 : k < p.1
    · rw [if_pos h1]
      refine List.pairwise_cons.mpr ⟨?_, hm⟩
      intro x hx
      rcases List.mem_cons.mp hx with h | h
      · exact h ▸ h1
      · exact Nat.lt_trans h1 (hp x h)
    · rw [if_neg h1]
      by_cases h2 : k = p.1
      · rw [if_pos h2]
        refine List.pairwise_cons.mpr ⟨?_, hrest⟩
        intro x hx
        exact h2 ▸ hp x hx
      · rw [if_neg h2]
        refine List.pairwise_cons.mpr ⟨?_, ih hrest⟩
        intro x hx
        have hpk : p.1 < k := by omega
        rcases mem_btInsert k v rest x hx with h | h
        · rw [h]; exact hpk
        · exact hp x h

/-- Folding the insertions of the client loop, starting from a given map. -/
def insertList (ps : List (Nat × List Nat)) (m : List (Nat × List Nat)) :
    List (Nat × List Nat) :=
  ps.foldl (fun m p => btInsert p.1 p.2 m) m

theorem insertList_perm :
    ∀ (ps m : List (Nat × List Nat)), (ps.map Prod.fst ++ keysOf m).Nodup →
      (insertList ps m).Perm (ps ++ m) := by
  intro ps
  induction ps with
  | nil => intro m _; exact List.Perm.refl _
  | cons p rest ih =>
    intro m hnd
    have hk : p.1 ∉ keysOf m := by
      intro h
      have : p.1 ∈ rest.map Prod.fst ++ keysOf m := List.mem_append_right _ h
      simp only [List.map_cons, List.cons_append, List.nodup_cons] at hnd
      exact hnd.1 this
    have hins : (btInsert p.1 p.2 m).Perm (p :: m) := btInsert_perm p.1 p.2 m hk
    have hkeys : (keysOf (btInsert p.1 p.2 m)).Perm (p.1 :: keysOf m) := hins.map Prod.fst
    have hnd' : (rest.map Prod.fst ++ keysOf (btInsert p.1 p.2 m)).Nodup := by
      have hperm : (rest.map Prod.fst ++ keysOf (btInsert p.1 p.2 m)).Perm
          (p.1 :: (rest.map Prod.fst ++ keysOf m)) :=
        ((List.Perm.append_left _ hkeys).trans (List.perm_middle)).symm.symm
      refine hperm.nodup_iff.mpr ?_
      simpa only [List.map_cons, List.cons_append] using hnd
    have h1 : (insertList rest (btInsert p.1 p.2 m)).Perm (rest ++ btInsert p.1 p.2 m) :=
      ih _ hnd'
    have h2 : (rest ++ btInsert p.1 p.2 m).Perm (rest ++ p :: m) :=
      List.Perm.append_left _ hins
    have h3 : (rest ++ p :: m).Perm (p :: (rest ++ m)) := List.perm_middle
    exact (h1.trans h2).trans h3

theorem insertList_pairwise :
    ∀ (ps m : List (Nat × List Nat)),
      List.Pairwise (fun a b : Nat × List Nat => a.1 < b.1) m →
      List.Pairwise (fun a b : Nat × List Nat => a.1 < b.1) (insertList ps m) := by
  intro ps
  induction ps with
  | nil => intro m hm; exact hm
  | cons p rest ih => intro m hm; exact ih _ (btInsert_pairwise p.1 p.2 m hm)

/-- When every chunk observed before the final one has `is_last` unset and
the final observed chunk has it set, the receive loop completes and its
map is the fold of all the insertions. -/
theorem collectLoop_append (front : List MessageChunk) (lastc : MessageChunk)
    (m : List (Nat × List Nat))
    (hf : ∀ c ∈ front, c.is_last = false) (hl : lastc.is_last = true) :
    collectLoop (front ++ [lastc]) m =
      some (insertList ((front ++ [lastc]).map (fun c => (c.sequence_number, chunkData c))) m) := by
  induction front generalizing m with
  | nil =>
    simp only [List.nil_append, collectLoop, hl, if_pos]
    rfl
  | cons c rest ih =>
    have hc : c.is_last = false := hf c (List.mem_cons_self _ _)
    simp only [List.cons_append, collectLoop, hc, if_neg Bool.false_ne_true, List.append_eq]
    rw [ih _ (fun c' hc' => hf c' (List.mem_cons_of_mem _ hc'))]
    rfl

instance : IsAntisymm (Nat × List Nat) (fun a b => a.1 < b.1) :=
  ⟨fun _ _ h h' => absurd (Nat.lt_trans h h') (Nat.lt_irrefl _)⟩

/-- Core reassembly result: if the observed chunk sequence is a permutation
of the transmitted one in which the `is_last` chunk comes last (every chunk
observed before the final position has `is_last = false`), the client
reconstructs the reply body exactly. -/
theorem request_server_reassembles (bytes : List Nat) (hb : bytes ≠ [])
    (obs : List MessageChunk)
    (hperm : obs.Perm (send_response bytes CHUNK_PAYLOAD_CAPACITY))
    (hfront : ∀ c ∈ obs.dropLast, c.is_last = false) :
    request_server obs = some bytes := by
  have hcap : CHUNK_PAYLOAD_CAPACITY ≠ 0 := by decide
  have hds : chunksOf CHUNK_PAYLOAD_CAPACITY bytes ≠ [] :=
    chunksOf_ne_nil _ hcap bytes hb
  have hcs_ne : send_response bytes CHUNK_PAYLOAD_CAPACITY ≠ [] :=
    sendChunks_ne_nil 0 _ hds
  have hobs_ne : obs ≠ [] := by
    intro h
    rw [h] at hperm
    exact hcs_ne (List.perm_nil.mp hperm.symm)
  have hsplit : obs.dropLast ++ [obs.getLast hobs_ne] = obs :=
    List.dropLast_append_getLast hobs_ne
  have hlast_true : (obs.getLast hobs_ne).is_last = true := by
    obtain ⟨cl, hcl, htrue⟩ := sendChunks_exists_last 0 _ hds
    have hclobs : cl ∈ obs := hperm.mem_iff.mpr hcl
    rw [← hsplit] at hclobs
    rcases List.mem_append.mp hclobs with h | h
    · rw [hfront cl h] at htrue; cases htrue
    · rw [← List.mem_singleton.mp h]; exact htrue
  have hloop := collectLoop_append obs.dropLast (obs.getLast hobs_ne) [] hfront hlast_true
  rw [hsplit] at hloop
  have hkv : (obs.map (fun c => (c.sequence_number, chunkData c))).Perm
      (seqPairs 0 (chunksOf CHUNK_PAYLOAD_CAPACITY bytes)) := by
    have h1 := hperm.map (fun c => (c.sequence_number, chunkData c))
    rw [show send_response bytes CHUNK_PAYLOAD_CAPACITY =
        sendChunks 0 (chunksOf CHUNK_PAYLOAD_CAPACITY bytes) from rfl,
      sendChunks_map_kv] at h1
    exact h1
  have hnodup : ((obs.map (fun c => (c.sequence_number, chunkData c))).map Prod.fst
      ++ keysOf []).Nodup := by
    rw [show keysOf [] = [] from rfl, List.append_nil]
    refine (hkv.map Prod.fst).nodup_iff.mpr ?_
    rw [seqPairs_map_fst]
    exact List.nodup_range' _ _
  have hfold : insertList (obs.map (fun c => (c.sequence_number, chunkData c))) [] =
      seqPairs 0 (chunksOf CHUNK_PAYLOAD_CAPACITY bytes) := by
    have hp1 := insertList_perm (obs.map (fun c => (c.sequence_number, chunkData c))) [] hnodup
    rw [List.append_nil] at hp1
    exact List.eq_of_perm_of_sorted (hp1.trans hkv)
      (insertList_pairwise _ [] List.Pairwise.nil)
      (seqPairs_pairwise 0 _)
  rw [request_server, hloop, Option.map_some', hfold]
  rw [seqPairs_map_snd, chunksOf_flatten _ hcap]

/-- C1 (amended): for every non-empty reply body of `L` bytes,
`send_response` splits it into `⌈L/CAP⌉` chunks of at most `CAP` payload
bytes each, numbered consecutively from 0 in transmission order with
`is_last` set on exactly the final chunk, and `request_server`
reconstructs exactly the original body from any observation order in
which the `is_last` chunk is observed last (amendment: the client's loop
stops at the first `is_last` chunk it sees, so observation orders that
deliver that chunk early drop the chunks after it; the original claim's
"any order" is restricted to orders keeping the final chunk last). -/
theorem framing_split_and_reassembly (bytes : List Nat) (hb : bytes ≠ []) :
    (send_response bytes CHUNK_PAYLOAD_CAPACITY).length =
      (bytes.length + CHUNK_PAYLOAD_CAPACITY - 1) / CHUNK_PAYLOAD_CAPACITY ∧
    (∀ (i : Nat) (h : i < (send_response bytes CHUNK_PAYLOAD_CAPACITY).length),
      ((send_response bytes CHUNK_PAYLOAD_CAPACITY).get ⟨i, h⟩).sequence_number = i ∧
      ((send_response bytes CHUNK_PAYLOAD_CAPACITY).get ⟨i, h⟩).used_payload_size ≤
        CHUNK_PAYLOAD_CAPACITY ∧
      (((send_response bytes CHUNK_PAYLOAD_CAPACITY).get ⟨i, h⟩).is_last = true ↔
        i = (send_response bytes CHUNK_PAYLOAD_CAPACITY).length - 1)) ∧
    (∀ obs : List MessageChunk,
      obs.Perm (send_response bytes CHUNK_PAYLOAD_CAPACITY) →
      (∀ c ∈ obs.dropLast, c.is_last = false) →
      request_server obs = some bytes) := by
  have hcap : CHUNK_PAYLOAD_CAPACITY ≠ 0 := by decide
  refine ⟨?_, ?_, request_server_reassembles bytes hb⟩
  · rw [show send_response bytes CHUNK_PAYLOAD_CAPACITY =
        sendChunks 0 (chunksOf CHUNK_PAYLOAD_CAPACITY bytes) from rfl,
      sendChunks_length, chunksOf_length _ hcap]
  · intro i h
    refine ⟨?_, ?_, ?_⟩
    · show ((sendChunks 0 (chunksOf CHUNK_PAYLOAD_CAPACITY bytes)).get ⟨i, h⟩).sequence_number = i
      rw [sendChunks_seq 0 _ i h, Nat.zero_add]
    · show ((sendChunks 0 (chunksOf CHUNK_PAYLOAD_CAPACITY bytes)).get
          ⟨i, h⟩).used_payload_size ≤ CHUNK_PAYLOAD_CAPACITY
      exact sendChunks_used_le 0 _ CHUNK_PAYLOAD_CAPACITY
        (fun d hd => chunksOf_mem_length _ bytes d hd) _ (List.get_mem _ _ h)
    · show ((sendChunks 0 (chunksOf CHUNK_PAYLOAD_CAPACITY bytes)).get ⟨i, h⟩).is_last = true ↔
        i = (sendChunks 0 (chunksOf CHUNK_PAYLOAD_CAPACITY bytes)).length - 1
      rw [sendChunks_is_last_iff 0 _ i h, sendChunks_length]

/-- Witness for C1: a concrete 3-byte body splits into one chunk and the
client reconstructs it. -/
theorem framing_split_and_reassembly_witness :
    ([1, 2, 3] : List Nat) ≠ [] ∧
    request_server (send_response [1, 2, 3] CHUNK_PAYLOAD_CAPACITY) = some [1, 2, 3] :=
  ⟨by decide,
    (framing_split_and_reassembly [1, 2, 3] (by decide)).2.2
      (send_response [1, 2, 3] CHUNK_PAYLOAD_CAPACITY) (List.Perm.refl _) (by decide)⟩

/-- C1 counterexample: the claim as stated ("even if chunks are observed
in a different order than transmitted") is false.  For the 4072-byte body
below, `send_response` transmits two chunks; observing them in reversed
order makes the client stop at the `is_last` chunk before collecting the
first chunk, reconstructing `[7]` instead of the body. -/
theorem framing_reorder_counterexample :
    request_server
        ((send_response (List.replicate 4072 7) CHUNK_PAYLOAD_CAPACITY).reverse) =
      some [7] ∧
    some [7] ≠ some (List.replicate 4072 7) := by
  have hne : (List.replicate 4072 7 : List Nat) ≠ [] := by
    intro h
    have h' := congrArg List.length h
    rw [List.length_replicate] at h'
    exact absurd h' (by decide)
  have hchunks : chunksOf CHUNK_PAYLOAD_CAPACITY (List.replicate 4072 7) =
      [List.replicate 4071 7, [7]] := by
    rw [chunksOf_cons _ _ (by decide) hne]
    rw [List.take_replicate, List.drop_replicate]
    have h1 : min CHUNK_PAYLOAD_CAPACITY 4072 = 4071 := by decide
    have h2 : 4072 - CHUNK_PAYLOAD_CAPACITY = 1 := by decide
    rw [h1, h2]
    have h3 : List.replicate 1 7 = [7] := rfl
    rw [h3, chunksOf_cons _ _ (by decide) (by simp)]
    have h4 : List.take CHUNK_PAYLOAD_CAPACITY [7] = [7] := by decide
    have h5 : List.drop CHUNK_PAYLOAD_CAPACITY [7] = ([] : List Nat) := by decide
    rw [h4, h5, chunksOf_nil]
  constructor
  · rw [show send_response (List.replicate 4072 7) CHUNK_PAYLOAD_CAPACITY =
        sendChunks 0 (chunksOf CHUNK_PAYLOAD_CAPACITY (List.replicate 4072 7)) from rfl,
      hchunks]
    show request_server
        [MessageChunk.new 1 true ([7] : List Nat).length [7],
         MessageChunk.new 0 false (List.replicate 4071 7).length (List.replicate 4071 7)] =
      some [7]
    rw [request_server]
    show Option.map _ (some (btInsert 1 (chunkData (MessageChunk.new 1 true
        ([7] : List Nat).length [7])) [])) = some [7]
    rw [chunkData_new]
    rfl
  · intro h
    have h2 : ([7] : List Nat) = List.replicate 4072 7 := Option.some.inj h
    have h3 := congrArg List.length h2
    rw [List.length_replicate] at h3
    simp at h3

/-! ## Payload encode/decode properties (claims about
`Command::encode_payload` / `Command::decode_payload`) -/

theorem takeWhile_append_of_all {p : Nat → Bool} (l t : List Nat)
    (hl : ∀ b ∈ l, p b = true) :
    (l ++ t).takeWhile p = l ++ t.takeWhile p := by
  induction l with
  | nil => rfl
  | cons x xs ih =>
    have hx : p x = true := hl x (List.mem_cons_self _ _)
    simp only [List.cons_append, List.takeWhile_cons, hx, if_pos]
    rw [ih (fun b hb => hl b (List.mem_cons_of_mem _ hb))]

theorem takeWhile_eq_self_of_all {p : Nat → Bool} (l : List Nat)
    (hl : ∀ b ∈ l, p b = true) : l.takeWhile p = l := by
  have := takeWhile_append_of_all l [] hl
  simpa using this

theorem takeWhile_append_of_mem_false {p : Nat → Bool} (l t : List Nat) (b0 : Nat)
    (hb : b0 ∈ l) (hp : p b0 = false) :
    (l ++ t).takeWhile p = l.takeWhile p := by
  induction l with
  | nil => cases hb
  | cons x xs ih =>
    by_cases hx : p x = true
    · have hbx : b0 ∈ xs := by
        rcases List.mem_cons.mp hb with h | h
        · rw [h] at hp; rw [hp] at hx; cases hx
        · exact h
      simp only [List.cons_append, List.takeWhile_cons, hx, if_pos]
      rw [ih hbx]
    · have hx' : p x = false := Bool.eq_false_iff.mpr hx
      simp only [List.cons_append, List.takeWhile_cons, hx', Bool.false_eq_true, if_false]

theorem takeWhile_length_lt {p : Nat → Bool} (l : List Nat) (b0 : Nat)
    (hb : b0 ∈ l) (hp : p b0 = false) :
    (l.takeWhile p).length < l.length := by
  induction l with
  | nil => cases hb
  | cons x xs ih =>
    by_cases hx : p x = true
    · have hbx : b0 ∈ xs := by
        rcases List.mem_cons.mp hb with h | h
        · rw [h] at hp; rw [hp] at hx; cases hx
        · exact h
      simp only [List.takeWhile_cons, hx, if_pos, List.length_cons]
      exact Nat.succ_lt_succ (ih hbx)
    · have hx' : p x = false := Bool.eq_false_iff.mpr hx
      simp only [List.takeWhile_cons, hx', Bool.false_eq_true, if_false, List.length_nil,
        List.length_cons]
      exact Nat.succ_pos _

theorem takeWhile_length_le {p : Nat → Bool} (l : List Nat) :
    (l.takeWhile p).length ≤ l.length := by
  induction l with
  | nil => exact Nat.le_refl _
  | cons x xs ih =>
    by_cases hx : p x = true
    · simp only [List.takeWhile_cons, hx, if_pos, List.length_cons]
      exact Nat.succ_le_succ ih
    · have hx' : p x = false := Bool.eq_false_iff.mpr hx
      simp only [List.takeWhile_cons, hx', Bool.false_eq_true, if_false, List.length_nil,
        List.length_cons]
      exact Nat.zero_le _

theorem takeWhile_eq_take_length {p : Nat → Bool} (l : List Nat) :
    l.takeWhile p = l.take (l.takeWhile p).length := by
  induction l with
  | nil => rfl
  | cons x xs ih =>
    by_cases hx : p x = true
    · simp only [List.takeWhile_cons, hx, if_pos, List.length_cons, List.take_succ_cons]
      rw [← ih]
    · have hx' : p x = false := Bool.eq_false_iff.mpr hx
      simp only [List.takeWhile_cons, hx', Bool.false_eq_true, if_false, List.length_nil,
        List.take_zero]

/-- C7 (amended): payload round-trip for NUL-free strings.
`decode_payload (encode_payload s) = s` for every byte string `s` with
`len(s) < CAP` that contains no zero byte (amendment: the original claim
quantified over all UTF-8 strings, but a string containing an interior
NUL byte — valid UTF-8 — decodes to the prefix before the NUL). -/
theorem payload_roundtrip (s : List Nat) (hlen : s.length < CHUNK_PAYLOAD_CAPACITY)
    (hnz : ∀ b ∈ s, b ≠ 0) : decode_payload (encode_payload s) = s := by
  unfold encode_payload decode_payload
  rw [List.take_of_length_le (Nat.le_of_lt hlen),
    min_eq_left (Nat.le_of_lt hlen)]
  rw [takeWhile_append_of_all s _ (fun b hb => decide_eq_true (hnz b hb))]
  rw [List.takeWhile_replicate]
  simp

/-- Witness for C7 at the concrete NUL-free byte string `[104, 105]`. -/
theorem payload_roundtrip_witness :
    ([104, 105] : List Nat).length < CHUNK_PAYLOAD_CAPACITY ∧
    (∀ b ∈ ([104, 105] : List Nat), b ≠ 0) ∧
    decode_payload (encode_payload [104, 105]) = [104, 105] :=
  ⟨by decide, by decide, payload_roundtrip [104, 105] (by decide) (by decide)⟩

/-- C7 counterexample: the byte string `[97, 0, 98]` (the UTF-8 bytes of
a three-character string whose middle character is NUL, shorter than
`CAP`) does not round-trip: decoding stops at the first zero byte. -/
theorem payload_roundtrip_counterexample :
    ([97, 0, 98] : List Nat).length < CHUNK_PAYLOAD_CAPACITY ∧
    decode_payload (encode_payload [97, 0, 98]) = [97] ∧
    ([97] : List Nat) ≠ [97, 0, 98] :=
  ⟨by decide, by decide, by decide⟩

/-- C10 (amended): `encode_payload` is total and silently truncating —
it always yields a `CAP`-byte buffer and never reports an error — and
the decoded result is a strict prefix of the original whenever the
input is strictly longer than `CAP` or contains a NUL byte among its
first `CAP` bytes (amendment: the original claim said length ≥ `CAP`,
but a NUL-free input of length exactly `CAP` fills the buffer completely
and decodes to itself, not to a strict prefix). -/
theorem encode_truncates (s : List Nat) :
    (encode_payload s).length = CHUNK_PAYLOAD_CAPACITY ∧
    (CHUNK_PAYLOAD_CAPACITY < s.length ∨ 0 ∈ s.take CHUNK_PAYLOAD_CAPACITY →
      decode_payload (encode_payload s) =
        s.take (decode_payload (encode_payload s)).length ∧
      (decode_payload (encode_payload s)).length < s.length) := by
  constructor
  · unfold encode_payload
    rw [List.length_append, List.length_take, List.length_replicate]
    rcases Nat.le_total s.length CHUNK_PAYLOAD_CAPACITY with h | h
    · rw [min_eq_right h, min_eq_left h]; omega
    · rw [min_eq_left h, min_eq_right h]; omega
  · intro hcase
    by_cases hz : 0 ∈ s.take CHUNK_PAYLOAD_CAPACITY
    · have hdec : decode_payload (encode_payload s) =
          (s.take CHUNK_PAYLOAD_CAPACITY).takeWhile (fun b => b ≠ 0) := by
        unfold encode_payload decode_payload
        exact takeWhile_append_of_mem_false _ _ 0 hz (by decide)
      have hle : (((s.take CHUNK_PAYLOAD_CAPACITY).takeWhile (fun b => b ≠ 0)).length) ≤
          CHUNK_PAYLOAD_CAPACITY := by
        calc ((s.take CHUNK_PAYLOAD_CAPACITY).takeWhile (fun b => b ≠ 0)).length
            ≤ (s.take CHUNK_PAYLOAD_CAPACITY).length := takeWhile_length_le _
          _ ≤ CHUNK_PAYLOAD_CAPACITY := by
              rw [List.length_take]; exact Nat.min_le_left _ _
      constructor
      · rw [hdec]
        calc (s.take CHUNK_PAYLOAD_CAPACITY).takeWhile (fun b => b ≠ 0)
            = (s.take CHUNK_PAYLOAD_CAPACITY).take
                ((s.take CHUNK_PAYLOAD_CAPACITY).takeWhile (fun b => b ≠ 0)).length :=
              takeWhile_eq_take_length _
          _ = s.take (((s.take CHUNK_PAYLOAD_CAPACITY).takeWhile (fun b => b ≠ 0)).length ⊓
                CHUNK_PAYLOAD_CAPACITY) := List.take_take _ _ _
          _ = s.take ((s.take CHUNK_PAYLOAD_CAPACITY).takeWhile (fun b => b ≠ 0)).length := by
              rw [min_eq_left hle]
      · rw [hdec]
        have h1 : ((s.take CHUNK_PAYLOAD_CAPACITY).takeWhile (fun b => b ≠ 0)).length <
            (s.take CHUNK_PAYLOAD_CAPACITY).length :=
          takeWhile_length_lt _ 0 hz (by decide)
        have h2 : (s.take CHUNK_PAYLOAD_CAPACITY).length ≤ s.length := by
          rw [List.length_take]; exact Nat.min_le_right _ _
        omega
    · have hlong : CHUNK_PAYLOAD_CAPACITY < s.length := hcase.resolve_right hz
      have hall : ∀ b ∈ s.take CHUNK_PAYLOAD_CAPACITY, (fun b => decide (b ≠ 0)) b = true := by
        intro b hb
        rcases Nat.eq_zero_or_pos b with h0 | h0
        · exact absurd (h0 ▸ hb) hz
        · exact decide_eq_true (Nat.pos_iff_ne_zero.mp h0)
      have hdec : decode_payload (encode_payload s) = s.take CHUNK_PAYLOAD_CAPACITY := by
        unfold encode_payload decode_payload
        rw [min_eq_right (Nat.le_of_lt hlong), Nat.sub_self]
        rw [show List.replicate 0 (0 : Nat) = [] from rfl, List.append_nil]
        exact takeWhile_eq_self_of_all _ hall
      have hlen_take : (s.take CHUNK_PAYLOAD_CAPACITY).length = CHUNK_PAYLOAD_CAPACITY := by
        rw [List.length_take]
        exact min_eq_left (Nat.le_of_lt hlong)
      refine ⟨?_, ?_⟩
      · rw [hdec, hlen_take]
      · rw [hdec, hlen_take]
        exact hlong

/-- Witness for C10 at a concrete over-long input: 4072 one-bytes encode
into the 4071-byte buffer and decode back to a strict prefix. -/
theorem encode_truncates_witness :
    (encode_payload (List.replicate (CHUNK_PAYLOAD_CAPACITY + 1) 1)).length =
      CHUNK_PAYLOAD_CAPACITY ∧
    (decode_payload (encode_payload (List.replicate (CHUNK_PAYLOAD_CAPACITY + 1) 1))).length <
      (List.replicate (CHUNK_PAYLOAD_CAPACITY + 1) 1).length :=
  ⟨(encode_truncates _).1,
    ((encode_truncates _).2 (Or.inl (by rw [List.length_replicate]; omega))).2⟩

/-- C10 counterexample: a NUL-free input of length exactly `CAP` (so of
length ≥ `CAP` as in the original claim) decodes to itself — not to a
strict prefix. -/
theorem encode_truncates_counterexample :
    CHUNK_PAYLOAD_CAPACITY ≤ (List.replicate CHUNK_PAYLOAD_CAPACITY 1).length ∧
    decode_payload (encode_payload (List.replicate CHUNK_PAYLOAD_CAPACITY 1)) =
      List.replicate CHUNK_PAYLOAD_CAPACITY 1 := by
  constructor
  · rw [List.length_replicate]
  · unfold encode_payload decode_payload
    rw [List.take_replicate, min_self, List.length_replicate, min_self, Nat.sub_self]
    rw [show List.replicate 0 (0 : Nat) = [] from rfl, List.append_nil]
    rw [List.takeWhile_replicate]
    rw [if_pos (by decide)]

/-- C3 (code-bug record): `send_response` on the empty reply body emits
no chunks at all — Rust's `chunks()` on an empty slice yields an empty
iterator, so the send loop never runs.  The spec requires exactly one
chunk with `used_payload_size = 0` and `is_last = true`; with zero chunks
the client never observes an `is_last` chunk and times out (`none`). -/
theorem send_response_empty_no_chunks :
    send_response [] CHUNK_PAYLOAD_CAPACITY = [] ∧
    request_server (send_response [] CHUNK_PAYLOAD_CAPACITY) = none :=
  ⟨rfl, rfl⟩

/-! ## Process registry data model (src/process_manager/registry.rs)

`DateTime<Utc>` timestamps are modelled as `Nat` (seconds), `PathBuf` as
`String`, `HashMap<String, String>` as an association list, and the
`f32` CPU sample as `Float` (never computed on).  The `HashMap<String,
ProcessInfo>` behind the `RwLock` is modelled as a list of records in
which `register` keeps names unique. -/

inductive ProcessState
  | Starting
  | Running
  | Stopping
  | Stopped
  | Errored
  | Restarting
  deriving Repr, DecidableEq

inductive HealthStatus
  | Healthy
  | Unhealthy (reason : String)
  | Unknown
  deriving Repr, DecidableEq

inductive HealthCheckType
  | Http (url : String) (expected_status : Option Nat)
  | Tcp (host : String) (port : Nat)
  | Command (cmd : String) (args : List String)
  deriving Repr, DecidableEq

structure HealthCheckConfig where
  check_type : HealthCheckType
  interval : Nat
  timeout : Nat
  retries : Nat
  start_period : Nat
  deriving Repr, DecidableEq

structure ProcessInfo where
  name : String
  pid : Option Nat
  state : ProcessState
  config_path : String
  script : String
  args : List String
  cwd : Option String
  env : List (String × String)
  restart_count : Nat
  started_at : Option Nat
  cpu_usage : Float
  memory_usage : Nat
  stdout_log : String
  stderr_log : String
  auto_restart : Bool
  max_memory : Nat
  healthcheck : Option HealthCheckConfig
  health_status : HealthStatus
  last_health_check : Option Nat
  health_failures : Nat
  watch_dirs : List String
  watch_patterns : List String
  deriving Repr

/-- `ProcessRegistry::get`: look the record up by name (a `HashMap` holds
at most one entry per name; on the list model, the first match). -/
def reg_get (reg : List ProcessInfo) (name : String) : Option ProcessInfo :=
  reg.find? (fun p => p.name = name)

/-- `processes.get_mut(name)` followed by a field update: rewrite the
record stored under `name` (our update functions never change `name`). -/
def modifyRecord (reg : List ProcessInfo) (name : String)
    (f : ProcessInfo → ProcessInfo) : List ProcessInfo :=
  reg.map (fun p => if p.name = name then f p else p)

/-- `ProcessRegistry::register`: fails (`false`) and leaves the registry
unchanged when the name is already present, else inserts. -/
def register (reg : List ProcessInfo) (info : ProcessInfo) :
    List ProcessInfo × Bool :=
  if (reg_get reg info.name).isSome then (reg, false) else (reg ++ [info], true)

/-- `ProcessRegistry::update_state`. -/
def update_state (reg : List ProcessInfo) (name : String) (st : ProcessState) :
    List ProcessInfo :=
  modifyRecord reg name (fun p => { p with state := st })

/-- `ProcessRegistry::update_pid` at time `now`: setting a pid also sets
`started_at` and transitions to Running; clearing it changes nothing
else. -/
def update_pid (now : Nat) (reg : List ProcessInfo) (name : String)
    (pid : Option Nat) : List ProcessInfo :=
  modifyRecord reg name (fun p =>
    match pid with
    | some _ => { p with pid := pid, started_at := some now, state := ProcessState.Running }
    | none => { p with pid := none })

/-- `ProcessRegistry::increment_restart_count` (registry effect). -/
def increment_restart_count (reg : List ProcessInfo) (name : String) :
    List ProcessInfo :=
  modifyRecord reg name (fun p => { p with restart_count := p.restart_count + 1 })

/-- `ProcessRegistry::remove`. -/
def reg_remove (reg : List ProcessInfo) (name : String) : List ProcessInfo :=
  reg.filter (fun p => ¬ p.name = name)

/-- `ProcessRegistry::update_health_status`: stores the probe result and
stamps `last_health_check` with the current time. -/
def update_health_status (now : Nat) (reg : List ProcessInfo) (name : String)
    (status : HealthStatus) : List ProcessInfo :=
  modifyRecord reg name (fun p =>
    { p with health_status := status, last_health_check := some now })

/-- `ProcessRegistry::increment_health_failures`: bumps the counter and
returns the new value (0 when the record is missing). -/
def increment_health_failures (reg : List ProcessInfo) (name : String) :
    List ProcessInfo × Nat :=
  (modifyRecord reg name (fun p => { p with health_failures := p.health_failures + 1 }),
   match reg_get reg name with
   | some p => p.health_failures + 1
   | none => 0)

/-- `ProcessRegistry::reset_health_failures`. -/
def reset_health_failures (reg : List ProcessInfo) (name : String) :
    List ProcessInfo :=
  modifyRecord reg name (fun p => { p with health_failures := 0 })

/-- `ProcessRegistry::check_dead_processes`: names of records that are
Errored with auto-restart enabled. -/
def check_dead_processes (reg : List ProcessInfo) : List String :=
  (reg.filter (fun p => p.state = ProcessState.Errored ∧ p.auto_restart)).map
    (fun p => p.name)

/-- `ProcessRegistry::get_running_processes`. -/
def get_running_processes (reg : List ProcessInfo) : List ProcessInfo :=
  reg.filter (fun p => p.state = ProcessState.Running)

/-- One `HashMap::insert` of `load_state`'s merge loop: replace the
record with the loaded one when the name is present, else add it. -/
def upsert (reg : List ProcessInfo) (p : ProcessInfo) : List ProcessInfo :=
  if (reg_get reg p.name).isSome then modifyRecord reg p.name (fun _ => p)
  else reg ++ [p]

/-- `ProcessRegistry::load_state` (merge effect): name-keyed upsert of
every loaded record over the current registry. -/
def load_state_merge (reg : List ProcessInfo) (loaded : List ProcessInfo) :
    List ProcessInfo :=
  loaded.foldl upsert reg

/-! ## Dispatcher / monitor actions (src/communication/server.rs)

Child spawning is external I/O; a `spawn` parameter supplies its outcome
(`some pid` on success, `none` when `cmd.spawn()` or the log-file
creation fails). -/

/-- `start_process` (server.rs lines 307-342): transition to Starting,
then on successful spawn store the pid (which also sets Running and
`started_at`); on failure return with the record left in Starting. -/
def start_process (spawn : Option Nat) (now : Nat) (reg : List ProcessInfo)
    (info : ProcessInfo) : List ProcessInfo × Bool :=
  let reg1 := update_state reg info.name ProcessState.Starting
  match spawn with
  | none => (reg1, false)
  | some pid => (update_pid now reg1 info.name (some pid), true)

/-- The per-app loop of `handle_start` (server.rs lines 289-302):
register each app (continue with a warning on duplicates), then spawn. -/
def handle_start_apps (now : Nat) (spawns : String → Option Nat)
    (reg : List ProcessInfo) (apps : List ProcessInfo) : List ProcessInfo :=
  apps.foldl (fun r info =>
    let rb := register r info
    if rb.2 then (start_process (spawns info.name) now rb.1 info).1 else rb.1) reg

/-- `handle_disable` (server.rs lines 411-418).  The source gets a
*clone* of the record (`registry.get` returns `Option<ProcessInfo>` by
clone), sets `auto_restart = false` on the clone, and drops it — the
registry itself is never written, so the returned registry is unchanged
even though the reply reports success. -/
def handle_disable (reg : List ProcessInfo) (name : String) :
    List ProcessInfo × String :=
  match reg_get reg name with
  | some _ => (reg, "Auto-restart disabled for: " ++ name)
  | none => (reg, "Process '" ++ name ++ "' not found")

/-- The restart arm of the monitor's health-check block (server.rs lines
146-161): transition to Restarting, reset the failure counter, re-read
the record and re-spawn it.  `restart_count` is not touched. -/
def monitor_health_restart (now : Nat) (spawn : Option Nat)
    (reg : List ProcessInfo) (name : String) : List ProcessInfo :=
  let reg3 := update_state reg name ProcessState.Restarting
  let reg4 := reset_health_failures reg3 name
  match reg_get reg4 name with
  | some proc => (start_process spawn now reg4 proc).1
  | none => reg4

/-- One health-check evaluation of the monitor loop (server.rs lines
127-166) for a running record `p` with config `hc`, where `status` is
the probe's result and `spawn` the outcome of a re-spawn if one
happens. -/
def monitor_health_step (now : Nat) (spawn : Option Nat)
    (reg : List ProcessInfo) (p : ProcessInfo) (hc : HealthCheckConfig)
    (status : HealthStatus) : List ProcessInfo :=
  let reg1 := update_health_status now reg p.name status
  match status with
  | HealthStatus.Healthy => reset_health_failures reg1 p.name
  | HealthStatus.Unhealthy _ =>
      let rf := increment_health_failures reg1 p.name
      if hc.retries ≤ rf.2 then monitor_health_restart now spawn rf.1 p.name
      else rf.1
  | HealthStatus.Unknown => reg1

/-- The `should_check` decision of the monitor's health scheduling
(server.rs lines 111-125): with a previous check, re-check after
`interval`; without one, first check after `start_period` from
`started_at`; never before the process has started. -/
def should_check (now : Nat) (p : ProcessInfo) (hc : HealthCheckConfig) : Bool :=
  match p.last_health_check with
  | some last => hc.interval ≤ now - last
  | none =>
      match p.started_at with
      | some started => hc.start_period ≤ now - started
      | none => false

/-- The dead-process restart step of the monitor loop (server.rs lines
91-104): for each name with an Errored auto-restart record, transition
to Restarting, increment `restart_count`, and re-spawn. -/
def monitor_dead_restart (now : Nat) (spawn : String → Option Nat)
    (reg : List ProcessInfo) : List ProcessInfo :=
  (check_dead_processes reg).foldl (fun r name =>
    match reg_get r name with
    | some process =>
        let r1 := update_state r name ProcessState.Restarting
        let r2 := increment_restart_count r1 name
        (start_process (spawn name) now r2 process).1
    | none => r) reg

/-! ## Registry lookup/update lemmas -/

theorem reg_get_modify_self (reg : List ProcessInfo) (name : String)
    (f : ProcessInfo → ProcessInfo) (hf : ∀ p, (f p).name = p.name) :
    reg_get (modifyRecord reg name f) name = (reg_get reg name).map f := by
  induction reg with
  | nil => rfl
  | cons p rest ih =>
    simp only [modifyRecord, List.map_cons, reg_get, List.find?_cons] at *
    by_cases hp : p.name = name
    · rw [if_pos hp]
      have h1 : (decide ((f p).name = name)) = true := decide_eq_true (by rw [hf p]; exact hp)
      have h2 : (decide (p.name = name)) = true := decide_eq_true hp
      rw [h1, h2]
      rfl
    · rw [if_neg hp]
      have h2 : (decide (p.name = name)) = false := decide_eq_false hp
      rw [h2]
      exact ih

theorem reg_get_modify_ne (reg : List ProcessInfo) (name name' : String)
    (f : ProcessInfo → ProcessInfo) (hf : ∀ p, (f p).name = p.name)
    (hne : name' ≠ name) :
    reg_get (modifyRecord reg name f) name' = reg_get reg name' := by
  induction reg with
  | nil => rfl
  | cons p rest ih =>
    simp only [modifyRecord, List.map_cons, reg_get, List.find?_cons] at *
    by_cases hp : p.name = name
    · rw [if_pos hp]
      have h1 : (decide ((f p).name = name')) = false := by
        refine decide_eq_false ?_
        rw [hf p, hp]
        exact fun h => hne h.symm
      have h2 : (decide (p.name = name')) = false := by
        refine decide_eq_false ?_
        rw [hp]
        exact fun h => hne h.symm
      rw [h1, h2]
      exact ih
    · rw [if_neg hp]
      by_cases hq : p.name = name'
      · rw [decide_eq_true hq]
      · rw [decide_eq_false hq]
        exact ih


theorem reg_get_append_left (reg l : List ProcessInfo) (name : String)
    (r : ProcessInfo) (hget : reg_get reg name = some r) :
    reg_get (reg ++ l) name = some r := by
  unfold reg_get at *
  rw [List.find?_append, hget]
  rfl

/-- Specialisations of `reg_get_modify_self` to the registry operations
(each one's update function keeps `name` unchanged). -/
theorem reg_get_update_state (reg : List ProcessInfo) (name : String) (st : ProcessState) :
    reg_get (update_state reg name st) name =
      (reg_get reg name).map (fun p => { p with state := st }) :=
  reg_get_modify_self reg name _ (fun _ => rfl)

theorem reg_get_update_pid_some (now : Nat) (reg : List ProcessInfo) (name : String)
    (pid : Nat) :
    reg_get (update_pid now reg name (some pid)) name =
      (reg_get reg name).map (fun p =>
        { p with pid := some pid, started_at := some now, state := ProcessState.Running }) :=
  reg_get_modify_self reg name _ (fun _ => rfl)

theorem reg_get_update_pid_none (now : Nat) (reg : List ProcessInfo) (name : String) :
    reg_get (update_pid now reg name none) name =
      (reg_get reg name).map (fun p => { p with pid := none }) :=
  reg_get_modify_self reg name _ (fun _ => rfl)

theorem reg_get_increment_restart_count (reg : List ProcessInfo) (name : String) :
    reg_get (increment_restart_count reg name) name =
      (reg_get reg name).map (fun p => { p with restart_count := p.restart_count + 1 }) :=
  reg_get_modify_self reg name _ (fun _ => rfl)

theorem reg_get_update_health_status (now : Nat) (reg : List ProcessInfo) (name : String)
    (status : HealthStatus) :
    reg_get (update_health_status now reg name status) name =
      (reg_get reg name).map (fun p =>
        { p with health_status := status, last_health_check := some now }) :=
  reg_get_modify_self reg name _ (fun _ => rfl)

theorem reg_get_increment_health_failures (reg : List ProcessInfo) (name : String) :
    reg_get (increment_health_failures reg name).1 name =
      (reg_get reg name).map (fun p =>
        { p with health_failures := p.health_failures + 1 }) :=
  reg_get_modify_self reg name _ (fun _ => rfl)

theorem reg_get_reset_health_failures (reg : List ProcessInfo) (name : String) :
    reg_get (reset_health_failures reg name) name =
      (reg_get reg name).map (fun p => { p with health_failures := 0 }) :=
  reg_get_modify_self reg name _ (fun _ => rfl)

/-! ## Consistency of `pid` and `state` -/

/-- Registry invariant from the spec: a pid is stored exactly while the
record is in one of the live states. -/
def pidStateInv (p : ProcessInfo) : Prop :=
  p.pid.isSome ↔ (p.state = ProcessState.Starting ∨ p.state = ProcessState.Running ∨
    p.state = ProcessState.Stopping ∨ p.state = ProcessState.Restarting)

/-- A concrete freshly-built record (what `ProcessInfo::from_app` yields:
Stopped, no pid, zero counters). -/
def testInfo : ProcessInfo where
  name := "a"
  pid := none
  state := ProcessState.Stopped
  config_path := "/tmp/a.json"
  script := "nosuchbinary"
  args := []
  cwd := none
  env := []
  restart_count := 0
  started_at := none
  cpu_usage := 0
  memory_usage := 0
  stdout_log := "/tmp/out.log"
  stderr_log := "/tmp/err.log"
  auto_restart := true
  max_memory := 0
  healthcheck := none
  health_status := HealthStatus.Unknown
  last_health_check := none
  health_failures := 0
  watch_dirs := []
  watch_patterns := []

/-- C2 (code-bug record): the pid/state invariant is broken by a failed
spawn.  Handling `Start` on a config whose script cannot be spawned
registers the record, moves it to Starting, and — because `start_process`
propagates the spawn error without any state transition — leaves it in
state Starting with `pid = None` after the handler returns, violating
"state is never Starting while pid is None".  (The spec's own §4.3 says a
spawn failure must transition the record to Errored, which would preserve
the invariant; the code never does.) -/
theorem start_failure_violates_pid_state_invariant :
    reg_get (handle_start_apps 0 (fun _ => none) [] [testInfo]) "a" =
      some { testInfo with state := ProcessState.Starting } ∧
    ({ testInfo with state := ProcessState.Starting } : ProcessInfo).pid = none ∧
    ¬ pidStateInv { testInfo with state := ProcessState.Starting } := by
  refine ⟨rfl, rfl, ?_⟩
  intro h
  rcases h with ⟨_, hforward⟩
  have h2 := hforward (Or.inl rfl)
  simp [testInfo] at h2

/-! ## Health-check restart (monitor loop) -/

/-- The TCP health check of the spec's scenario 4, with `retries = 3`. -/
def testHC : HealthCheckConfig where
  check_type := HealthCheckType.Tcp "127.0.0.1" 1
  interval := 1
  timeout := 5
  retries := 3
  start_period := 10

/-- A Running record with that health check and two recorded failures. -/
def testInfoH : ProcessInfo :=
  { testInfo with
      name := "h"
      pid := some 7
      state := ProcessState.Running
      healthcheck := some testHC
      health_failures := 2 }

/-- C4 (amended): when an Unhealthy probe result makes `health_failures`
reach `retries`, the monitor iteration takes the restart arm — transition
to Restarting, reset of the failure counter, re-spawn — and the final
record has `health_failures = 0` and, on a successful spawn, state
Running with the new pid; `restart_count` is unchanged (amendment: the
original claim also said `restart_count` increases by 1, but the
health-restart path, unlike the dead-process-restart path, never calls
`increment_restart_count`). -/
theorem health_failure_restart (now : Nat) (spawn : Option Nat)
    (reg : List ProcessInfo) (p : ProcessInfo) (hc : HealthCheckConfig)
    (reason : String) (hget : reg_get reg p.name = some p)
    (hretr : hc.retries ≤ p.health_failures + 1) :
    monitor_health_step now spawn reg p hc (HealthStatus.Unhealthy reason) =
      monitor_health_restart now spawn
        (increment_health_failures
          (update_health_status now reg p.name (HealthStatus.Unhealthy reason)) p.name).1
        p.name ∧
    ∃ p', reg_get (monitor_health_step now spawn reg p hc (HealthStatus.Unhealthy reason))
        p.name = some p' ∧
      p'.health_failures = 0 ∧
      p'.restart_count = p.restart_count ∧
      (∀ pid, spawn = some pid →
        p'.state = ProcessState.Running ∧ p'.pid = some pid ∧ p'.started_at = some now) ∧
      (spawn = none → p'.state = ProcessState.Starting) := by
  have hcount : (increment_health_failures
      (update_health_status now reg p.name (HealthStatus.Unhealthy reason)) p.name).2 =
      p.health_failures + 1 := by
    show (match reg_get (update_health_status now reg p.name (HealthStatus.Unhealthy reason))
        p.name with
      | some p => p.health_failures + 1
      | none => 0) = p.health_failures + 1
    rw [reg_get_update_health_status, hget]
    rfl
  have hbranch : monitor_health_step now spawn reg p hc (HealthStatus.Unhealthy reason) =
      monitor_health_restart now spawn
        (increment_health_failures
          (update_health_status now reg p.name (HealthStatus.Unhealthy reason)) p.name).1
        p.name := by
    show (if hc.retries ≤ (increment_health_failures
        (update_health_status now reg p.name (HealthStatus.Unhealthy reason)) p.name).2
      then monitor_health_restart now spawn
        (increment_health_failures
          (update_health_status now reg p.name (HealthStatus.Unhealthy reason)) p.name).1
        p.name
      else (increment_health_failures
        (update_health_status now reg p.name (HealthStatus.Unhealthy reason)) p.name).1) = _
    rw [hcount, if_pos hretr]
  refine ⟨hbranch, ?_⟩
  rw [hbranch]
  have hget1 : reg_get (increment_health_failures
      (update_health_status now reg p.name (HealthStatus.Unhealthy reason)) p.name).1 p.name =
      some { p with
        health_status := HealthStatus.Unhealthy reason
        last_health_check := some now
        health_failures := p.health_failures + 1 } := by
    rw [reg_get_increment_health_failures, reg_get_update_health_status, hget]
    rfl
  have hget4 : reg_get (reset_health_failures (update_state
      (increment_health_failures
        (update_health_status now reg p.name (HealthStatus.Unhealthy reason)) p.name).1
      p.name ProcessState.Restarting) p.name) p.name =
      some { p with
        health_status := HealthStatus.Unhealthy reason
        last_health_check := some now
        state := ProcessState.Restarting
        health_failures := 0 } := by
    rw [reg_get_reset_health_failures, reg_get_update_state, hget1]
    rfl
  simp only [monitor_health_restart]
  rw [hget4]
  match spawn with
  | none =>
    refine ⟨{ p with
        health_status := HealthStatus.Unhealthy reason
        last_health_check := some now
        state := ProcessState.Starting
        health_failures := 0 }, ?_, rfl, rfl, ?_, ?_⟩
    · show reg_get (update_state _ _ ProcessState.Starting) _ = _
      rw [reg_get_update_state, hget4]
      rfl
    · intro pid hpid; cases hpid
    · intro _; rfl
  | some pid =>
    refine ⟨{ p with
        health_status := HealthStatus.Unhealthy reason
        last_health_check := some now
        state := ProcessState.Running
        health_failures := 0
        pid := some pid
        started_at := some now }, ?_, rfl, rfl, ?_, ?_⟩
    · show reg_get (update_pid now (update_state _ _ ProcessState.Starting) _ (some pid)) _ = _
      rw [reg_get_update_pid_some, reg_get_update_state, hget4]
      rfl
    · intro pid' hpid'
      cases hpid'
      exact ⟨rfl, rfl, rfl⟩
    · intro h; cases h

/-- Witness for C4 at the concrete record `testInfoH` (2 recorded
failures, retries 3): one more Unhealthy result triggers the restart. -/
theorem health_failure_restart_witness :
    reg_get [testInfoH] testInfoH.name = some testInfoH ∧
    testHC.retries ≤ testInfoH.health_failures + 1 ∧
    ∃ p', reg_get (monitor_health_step 100 (some 42) [testInfoH] testInfoH testHC
        (HealthStatus.Unhealthy "connection refused")) testInfoH.name = some p' ∧
      p'.health_failures = 0 ∧
      p'.restart_count = testInfoH.restart_count ∧
      (∀ pid, some 42 = some pid →
        p'.state = ProcessState.Running ∧ p'.pid = some pid ∧ p'.started_at = some 100) ∧
      ((some 42 : Option Nat) = none → p'.state = ProcessState.Starting) :=
  ⟨rfl, by decide,
    (health_failure_restart 100 (some 42) [testInfoH] testInfoH testHC
      "connection refused" rfl (by decide)).2⟩

/-- C4 counterexample: in the health-restart scenario just witnessed,
`restart_count` is 0 both before and after the restart — it does not
increase by 1 as the original claim states. -/
theorem health_restart_count_counterexample :
    (reg_get [testInfoH] "h").map (fun p => p.restart_count) = some 0 ∧
    (reg_get (monitor_health_step 100 (some 42) [testInfoH] testInfoH testHC
        (HealthStatus.Unhealthy "connection refused")) "h").map
      (fun p => p.restart_count) = some 0 :=
  ⟨rfl, rfl⟩

/-! ## Disable (claim C5) -/

/-- An Errored record with auto-restart enabled, eligible for
`check_dead_processes`. -/
def testInfoD : ProcessInfo :=
  { testInfo with name := "d", state := ProcessState.Errored, auto_restart := true }

/-- C5 (code-bug record): `handle_disable` reports success but clears
`auto_restart` only on a local clone of the record, never in the
registry: after the handler, `get` still returns `auto_restart = true`
and `check_dead_processes` still selects the record. -/
theorem disable_does_not_clear_auto_restart :
    handle_disable [testInfoD] "d" = ([testInfoD], "Auto-restart disabled for: d") ∧
    (reg_get (handle_disable [testInfoD] "d").1 "d").map (fun p => p.auto_restart) =
      some true ∧
    check_dead_processes (handle_disable [testInfoD] "d").1 = ["d"] :=
  ⟨rfl, rfl, rfl⟩

/-! ## Restart-count monotonicity (claim C6) -/

/-- The registry operations, as a step alphabet.  `spawn`/signals are not
registry operations; every handler's and monitor's registry effect is a
sequence of these. -/
inductive RegOp
  | register (info : ProcessInfo)
  | update_state (name : String) (st : ProcessState)
  | update_pid (now : Nat) (name : String) (pid : Option Nat)
  | increment_restart_count (name : String)
  | remove (name : String)
  | update_health_status (now : Nat) (name : String) (status : HealthStatus)
  | increment_health_failures (name : String)
  | reset_health_failures (name : String)
  | load_state (loaded : List ProcessInfo)

/-- The registry-state effect of one operation. -/
def RegOp.apply (reg : List ProcessInfo) : RegOp → List ProcessInfo
  | RegOp.register info => (BPM.register reg info).1
  | RegOp.update_state name st => BPM.update_state reg name st
  | RegOp.update_pid now name pid => BPM.update_pid now reg name pid
  | RegOp.increment_restart_count name => BPM.increment_restart_count reg name
  | RegOp.remove name => reg_remove reg name
  | RegOp.update_health_status now name status => BPM.update_health_status now reg name status
  | RegOp.increment_health_failures name => (BPM.increment_health_failures reg name).1
  | RegOp.reset_health_failures name => BPM.reset_health_failures reg name
  | RegOp.load_state loaded => load_state_merge reg loaded

/-- Is this operation a `load_state` merge? -/
def RegOp.isLoad : RegOp → Bool
  | RegOp.load_state _ => true
  | _ => false

/-- Does this operation remove the record named `name`? -/
def RegOp.removesName (name : String) : RegOp → Bool
  | RegOp.remove n => n = name
  | _ => false

/-- `remove` of a different name leaves a record's lookup unchanged. -/
theorem reg_get_remove_ne (reg : List ProcessInfo) (n name : String)
    (hn : n ≠ name) (r : ProcessInfo) (hget : reg_get reg name = some r) :
    reg_get (reg_remove reg n) name = some r := by
  unfold reg_remove
  unfold reg_get at hget ⊢
  induction reg with
  | nil => cases hget
  | cons p rest ih =>
    rw [List.find?_cons] at hget
    rw [List.filter_cons]
    by_cases hp : p.name = name
    · rw [decide_eq_true hp] at hget
      have hkeep : (decide (¬ p.name = n)) = true :=
        decide_eq_true (by rw [hp]; exact fun h => hn h.symm)
      rw [hkeep, if_pos rfl, List.find?_cons, decide_eq_true hp]
      exact hget
    · rw [decide_eq_false hp] at hget
      by_cases hq : p.name = n
      · have hdrop : (decide (¬ p.name = n)) = false :=
          decide_eq_false (fun hnn => hnn hq)
        rw [hdrop]
        simp only [Bool.false_eq_true, if_false]
        exact ih hget
      · have hkeep : (decide (¬ p.name = n)) = true := decide_eq_true hq
        rw [hkeep, if_pos rfl, List.find?_cons, decide_eq_false hp]
        exact ih hget

theorem restart_count_mono_step (op : RegOp) (reg : List ProcessInfo)
    (name : String) (r : ProcessInfo)
    (hop1 : op.isLoad = false) (hop2 : op.removesName name = false)
    (hget : reg_get reg name = some r) :
    ∃ r', reg_get (RegOp.apply reg op) name = some r' ∧
      r.restart_count ≤ r'.restart_count := by
  match op with
  | RegOp.register info =>
    show ∃ r', reg_get (BPM.register reg info).1 name = some r' ∧ _
    unfold BPM.register
    by_cases hp : (reg_get reg info.name).isSome
    · rw [if_pos hp]
      exact ⟨r, hget, Nat.le_refl _⟩
    · rw [if_neg hp]
      exact ⟨r, reg_get_append_left reg [info] name r hget, Nat.le_refl _⟩
  | RegOp.update_state n st =>
    show ∃ r', reg_get (BPM.update_state reg n st) name = some r' ∧ _
    by_cases hn : name = n
    · subst hn
      rw [reg_get_update_state, hget]
      exact ⟨_, rfl, Nat.le_refl _⟩
    · rw [BPM.update_state, reg_get_modify_ne reg n name
        (fun p => { p with state := st }) (fun _ => rfl) hn, hget]
      exact ⟨r, rfl, Nat.le_refl _⟩
  | RegOp.update_pid now n pid =>
    show ∃ r', reg_get (BPM.update_pid now reg n pid) name = some r' ∧ _
    by_cases hn : name = n
    · subst hn
      match pid with
      | some q =>
        rw [reg_get_update_pid_some, hget]
        exact ⟨_, rfl, Nat.le_refl _⟩
      | none =>
        rw [reg_get_update_pid_none, hget]
        exact ⟨_, rfl, Nat.le_refl _⟩
    · match pid with
      | some q =>
        show ∃ r', reg_get (modifyRecord reg n
            (fun p => { p with
              pid := some q
              started_at := some now
              state := ProcessState.Running })) name = some r' ∧
          r.restart_count ≤ r'.restart_count
        rw [reg_get_modify_ne reg n name
          (fun p => { p with
            pid := some q
            started_at := some now
            state := ProcessState.Running }) (fun _ => rfl) hn, hget]
        exact ⟨r, rfl, Nat.le_refl _⟩
      | none =>
        show ∃ r', reg_get (modifyRecord reg n
            (fun p => { p with pid := none })) name = some r' ∧
          r.restart_count ≤ r'.restart_count
        rw [reg_get_modify_ne reg n name
          (fun p => { p with pid := none }) (fun _ => rfl) hn, hget]
        exact ⟨r, rfl, Nat.le_refl _⟩
  | RegOp.increment_restart_count n =>
    show ∃ r', reg_get (BPM.increment_restart_count reg n) name = some r' ∧ _
    by_cases hn : name = n
    · subst hn
      rw [reg_get_increment_restart_count, hget]
      exact ⟨_, rfl, Nat.le_succ _⟩
    · rw [BPM.increment_restart_count, reg_get_modify_ne reg n name
        (fun p => { p with restart_count := p.restart_count + 1 }) (fun _ => rfl) hn, hget]
      exact ⟨r, rfl, Nat.le_refl _⟩
  | RegOp.remove n =>
    show ∃ r', reg_get (reg_remove reg n) name = some r' ∧ _
    have hn : n ≠ name := by
      intro h
      rw [RegOp.removesName, decide_eq_true h] at hop2
      cases hop2
    exact ⟨r, reg_get_remove_ne reg n name hn r hget, Nat.le_refl _⟩
  | RegOp.update_health_status now n status =>
    show ∃ r', reg_get (BPM.update_health_status now reg n status) name = some r' ∧ _
    by_cases hn : name = n
    · subst hn
      rw [reg_get_update_health_status, hget]
      exact ⟨_, rfl, Nat.le_refl _⟩
    · rw [BPM.update_health_status, reg_get_modify_ne reg n name
        (fun p => { p with health_status := status, last_health_check := some now })
        (fun _ => rfl) hn, hget]
      exact ⟨r, rfl, Nat.le_refl _⟩
  | RegOp.increment_health_failures n =>
    show ∃ r', reg_get (BPM.increment_health_failures reg n).1 name = some r' ∧ _
    by_cases hn : name = n
    · subst hn
      rw [reg_get_increment_health_failures, hget]
      exact ⟨_, rfl, Nat.le_refl _⟩
    · show ∃ r', reg_get (modifyRecord reg n
        (fun p => { p with health_failures := p.health_failures + 1 })) name = some r' ∧ _
      rw [reg_get_modify_ne reg n name
        (fun p => { p with health_failures := p.health_failures + 1 }) (fun _ => rfl) hn, hget]
      exact ⟨r, rfl, Nat.le_refl _⟩
  | RegOp.reset_health_failures n =>
    show ∃ r', reg_get (BPM.reset_health_failures reg n) name = some r' ∧ _
    by_cases hn : name = n
    · subst hn
      rw [reg_get_reset_health_failures, hget]
      exact ⟨_, rfl, Nat.le_refl _⟩
    · rw [BPM.reset_health_failures, reg_get_modify_ne reg n name
        (fun p => { p with health_failures := 0 }) (fun _ => rfl) hn, hget]
      exact ⟨r, rfl, Nat.le_refl _⟩
  | RegOp.load_state loaded =>
    rw [RegOp.isLoad] at hop1
    cases hop1

/-- C6 (amended): `restart_count` never decreases across any sequence of
registry operations that contains no `load_state` merge and no `remove`
of the record in question (amendment: the original claim included
`load_state`, but `load_state` is a name-keyed upsert that *replaces* a
record with the one loaded from disk, so it can lower `restart_count`;
`remove` followed by a fresh `register` likewise resets it). -/
theorem restart_count_monotone (ops : List RegOp) (reg : List ProcessInfo)
    (name : String) (r : ProcessInfo)
    (hops : ∀ op ∈ ops, op.isLoad = false ∧ op.removesName name = false)
    (hget : reg_get reg name = some r) :
    ∃ r', reg_get (ops.foldl RegOp.apply reg) name = some r' ∧
      r.restart_count ≤ r'.restart_count := by
  induction ops generalizing reg r with
  | nil => exact ⟨r, hget, Nat.le_refl _⟩
  | cons op rest ih =>
    obtain ⟨h1, h2⟩ := hops op (List.mem_cons_self _ _)
    obtain ⟨r1, hget1, hle1⟩ := restart_count_mono_step op reg name r h1 h2 hget
    obtain ⟨r', hget', hle'⟩ := ih (RegOp.apply reg op) r1
      (fun o ho => hops o (List.mem_cons_of_mem _ ho)) hget1
    exact ⟨r', hget', Nat.le_trans hle1 hle'⟩

/-- Witness for C6: a concrete run of state, restart-count, and pid
updates on a registered record keeps `restart_count` non-decreasing. -/
theorem restart_count_monotone_witness :
    (∀ op ∈ [RegOp.update_state "a" ProcessState.Running,
      RegOp.increment_restart_count "a",
      RegOp.update_pid 5 "a" (some 9)], op.isLoad = false ∧ op.removesName "a" = false) ∧
    reg_get [testInfo] "a" = some testInfo ∧
    ∃ r', reg_get ([RegOp.update_state "a" ProcessState.Running,
      RegOp.increment_restart_count "a",
      RegOp.update_pid 5 "a" (some 9)].foldl RegOp.apply [testInfo]) "a" = some r' ∧
      testInfo.restart_count ≤ r'.restart_count :=
  ⟨by decide, rfl,
    restart_count_monotone _ [testInfo] "a" testInfo (by decide) rfl⟩

/-- C6 counterexample: `load_state` merging a disk record over an
existing entry lowers its `restart_count` from 5 to 0. -/
theorem load_state_decreases_restart_count :
    (reg_get [{ testInfo with restart_count := 5 }] "a").map
      (fun p => p.restart_count) = some 5 ∧
    (reg_get (load_state_merge [{ testInfo with restart_count := 5 }] [testInfo]) "a").map
      (fun p => p.restart_count) = some 0 ∧
    (0 : Nat) < 5 :=
  ⟨rfl, rfl, by decide⟩

/-! ## Duration-string parsers (claim C8)

Rust `&str` values are modelled as `List Char`.  Two distinct parsers
exist in the source: `ProcessInfo::parse_duration_str`
(src/process_manager/registry.rs lines 194-213) and the serde helper
`parse_duration` (src/config/read_config.rs lines 125-154).  Durations
are modelled as their seconds (`Duration::from_secs`). -/

/-- Rust `str::ends_with(pat)`. -/
def endsWith (pat s : List Char) : Bool :=
  decide (pat.length ≤ s.length ∧ s.drop (s.length - pat.length) = pat)

/-- One suffix removal: `some` of the shortened string when `pat` is a
suffix of `s`, else `none`. -/
def dropSuffixQ (pat s : List Char) : Option (List Char) :=
  if pat.length ≤ s.length ∧ s.drop (s.length - pat.length) = pat then
    some (s.take (s.length - pat.length))
  else none

/-- Fuel recursion for `trimEndMatches` (each removal strips at least one
character, so `s.length` fuel suffices). -/
def trimEndGo (pat : List Char) : Nat → List Char → List Char
  | 0, s => s
  | fuel + 1, s =>
      match dropSuffixQ pat s with
      | some s' => trimEndGo pat fuel s'
      | none => s

/-- Rust `str::trim_end_matches(pat)`: repeatedly remove the suffix
`pat` (the empty pattern removes nothing). -/
def trimEndMatches (pat s : List Char) : List Char :=
  if pat.isEmpty then s else trimEndGo pat s.length s

/-- Numeric value of a digit string (the accumulator loop of integer
parsing). -/
def digitVal (d : List Char) : Nat :=
  d.foldl (fun acc c => acc * 10 + (c.toNat - 48)) 0

/-- Rust `str::parse::<u64>()`: an optional leading `+`, then at least
one digit, rejecting values that do not fit in 64 bits. -/
def parseU64 (s : List Char) : Option Nat :=
  let digits := if s.head? = some '+' then s.tail else s
  if digits = [] then none
  else if digits.all (fun c => c.isDigit) then
    if digitVal digits < 2 ^ 64 then some (digitVal digits) else none
  else none

/-- `ProcessInfo::parse_duration_str` (registry.rs): suffixes `s`, `m`,
`h` only; *every* other input — parse failures included — falls back to
the default of 30 seconds. -/
def parse_duration_str (s : List Char) : Nat :=
  if endsWith ['s'] s then
    match parseU64 (trimEndMatches ['s'] s) with
    | some n => n
    | none => 30
  else if endsWith ['m'] s then
    match parseU64 (trimEndMatches ['m'] s) with
    | some n => n * 60
    | none => 30
  else if endsWith ['h'] s then
    match parseU64 (trimEndMatches ['h'] s) with
    | some n => n * 3600
    | none => 30
  else 30

/-- `parse_duration` (read_config.rs): the serde deserializer; suffix
`s` first, then `min`/`m`, then `hr`/`h`; anything else is rejected with
"Invalid duration format", and digit-parse failures are propagated as
errors (modelled by the fixed message "invalid digits"). -/
def parse_duration (s : List Char) : Except String Nat :=
  if endsWith ['s'] s then
    match parseU64 (trimEndMatches ['s'] s) with
    | some n => Except.ok n
    | none => Except.error "invalid digits"
  else if endsWith ['m', 'i', 'n'] s || endsWith ['m'] s then
    match parseU64 (trimEndMatches ['m'] (trimEndMatches ['m', 'i', 'n'] s)) with
    | some n => Except.ok (n * 60)
    | none => Except.error "invalid digits"
  else if endsWith ['h', 'r'] s || endsWith ['h'] s then
    match parseU64 (trimEndMatches ['h'] (trimEndMatches ['h', 'r'] s)) with
    | some n => Except.ok (n * 3600)
    | none => Except.error "invalid digits"
  else Except.error "Invalid duration format"

/-! ### Suffix lemmas -/

theorem suffix_getLast (pat s : List Char) (hne : pat ≠ [])
    (heq : s.drop (s.length - pat.length) = pat) :
    s.getLast? = pat.getLast? := by
  have hsplit : s.take (s.length - pat.length) ++ s.drop (s.length - pat.length) = s :=
    List.take_append_drop _ _
  rw [← hsplit, heq, List.getLast?_append]
  have : pat.getLast?.isSome = true := List.getLast?_isSome.mpr hne
  match hp : pat.getLast? with
  | some c => rfl
  | none => rw [hp] at this; cases this

theorem endsWith_false_of_getLast (pat s : List Char) (c c' : Char)
    (hpat : pat.getLast? = some c) (hs : s.getLast? = some c') (hcc : c ≠ c') :
    endsWith pat s = false := by
  refine decide_eq_false ?_
  intro ⟨_, heq⟩
  have hne : pat ≠ [] := by
    intro h
    rw [h] at hpat
    cases hpat
  have := suffix_getLast pat s hne heq
  rw [hs, hpat] at this
  exact hcc (Option.some.inj this).symm

theorem dropSuffixQ_none_of_getLast (pat s : List Char) (c c' : Char)
    (hpat : pat.getLast? = some c) (hs : s.getLast? = some c') (hcc : c ≠ c') :
    dropSuffixQ pat s = none := by
  unfold dropSuffixQ
  rw [if_neg]
  intro ⟨_, heq⟩
  have hne : pat ≠ [] := by
    intro h
    rw [h] at hpat
    cases hpat
  have := suffix_getLast pat s hne heq
  rw [hs, hpat] at this
  exact hcc (Option.some.inj this).symm

theorem endsWith_append_true (pat d : List Char) :
    endsWith pat (d ++ pat) = true := by
  refine decide_eq_true ⟨?_, ?_⟩
  · rw [List.length_append]
    omega
  · have h : (d ++ pat).length - pat.length = d.length := by
      rw [List.length_append]
      omega
    rw [h, List.drop_left]

theorem dropSuffixQ_append (pat d : List Char) :
    dropSuffixQ pat (d ++ pat) = some d := by
  unfold dropSuffixQ
  have h : (d ++ pat).length - pat.length = d.length := by
    rw [List.length_append]
    omega
  rw [if_pos ⟨by rw [List.length_append]; omega, by rw [h, List.drop_left]⟩, h,
    List.take_left]

theorem trimEndGo_none (pat s : List Char) (fuel : Nat)
    (hnone : dropSuffixQ pat s = none) : trimEndGo pat fuel s = s := by
  match fuel with
  | 0 => rfl
  | fuel + 1 =>
    unfold trimEndGo
    rw [hnone]

/-- When `s = d ++ pat` with `d` not itself ending in `pat`, trimming
removes exactly one copy of `pat`. -/
theorem trimEndMatches_append (pat d : List Char) (hne : pat ≠ [])
    (hd : dropSuffixQ pat d = none) :
    trimEndMatches pat (d ++ pat) = d := by
  unfold trimEndMatches
  rw [if_neg (by simpa [List.isEmpty_iff] using hne)]
  have hlen : (d ++ pat).length = d.length + pat.length := List.length_append _ _
  have hp : 1 ≤ pat.length := by
    match pat with
    | [] => exact absurd rfl hne
    | _ :: _ => simp
  rw [hlen]
  match hfl : d.length + pat.length with
  | 0 => omega
  | fuel + 1 =>
    unfold trimEndGo
    rw [dropSuffixQ_append]
    exact trimEndGo_none pat d fuel hd

/-- When `s` does not end in `pat`, trimming is the identity. -/
theorem trimEndMatches_id (pat s : List Char)
    (hd : dropSuffixQ pat s = none) : trimEndMatches pat s = s := by
  unfold trimEndMatches
  by_cases hp : pat.isEmpty
  · rw [if_pos hp]
  · rw [if_neg hp]
    exact trimEndGo_none pat s s.length hd

/-! ### Digit-string lemmas -/

theorem digits_getLast (d : List Char) (hd : d ≠ [])
    (hdig : ∀ c ∈ d, c.isDigit = true) :
    ∃ c', d.getLast? = some c' ∧ c'.isDigit = true := by
  have hsome : d.getLast?.isSome = true := List.getLast?_isSome.mpr hd
  match hl : d.getLast? with
  | some c' =>
    refine ⟨c', rfl, hdig c' ?_⟩
    exact List.mem_of_getLast?_eq_some hl
  | none => rw [hl] at hsome; cases hsome

theorem bool_ne_true {b : Bool} (h : b = false) : ¬ (b = true) := by
  rw [h]
  exact Bool.false_ne_true

theorem parseU64_digits (d : List Char) (hd : d ≠ [])
    (hdig : ∀ c ∈ d, c.isDigit = true) (hv : digitVal d < 2 ^ 64) :
    parseU64 d = some (digitVal d) := by
  have hhead : ¬ (d.head? = some '+') := by
    match d with
    | [] => exact absurd rfl hd
    | c :: rest =>
      intro h
      have hc : c.isDigit = true := hdig c (List.mem_cons_self _ _)
      rw [List.head?_cons] at h
      rw [Option.some.inj h] at hc
      exact absurd hc (by decide)
  simp only [parseU64]
  rw [if_neg hhead, if_neg hd, if_pos (List.all_eq_true.mpr hdig), if_pos hv]

/-- C8 (amended): the two duration parsers differ.  The config-file
parser `parse_duration` accepts exactly the suffixes `s`, `m`/`min`,
`h`/`hr` on a digit string (value below `2^64`) and rejects every other
suffix with an error.  The healthcheck parser `parse_duration_str`
accepts only `s`, `m`, `h`; `<n>min` and `<n>hr` — and every other
unrecognised string — are *not* rejected but silently replaced by the
30-second default (amendment: the original claim said both parsers
accept `min`/`hr` and reject anything else; only the config parser
does). -/
theorem duration_parsers_spec (d : List Char) (hd : d ≠ [])
    (hdig : ∀ c ∈ d, c.isDigit = true) (hv : digitVal d < 2 ^ 64) :
    parse_duration (d ++ ['s']) = Except.ok (digitVal d) ∧
    parse_duration (d ++ ['m']) = Except.ok (digitVal d * 60) ∧
    parse_duration (d ++ ['m', 'i', 'n']) = Except.ok (digitVal d * 60) ∧
    parse_duration (d ++ ['h']) = Except.ok (digitVal d * 3600) ∧
    parse_duration (d ++ ['h', 'r']) = Except.ok (digitVal d * 3600) ∧
    parse_duration_str (d ++ ['s']) = digitVal d ∧
    parse_duration_str (d ++ ['m']) = digitVal d * 60 ∧
    parse_duration_str (d ++ ['h']) = digitVal d * 3600 ∧
    parse_duration_str (d ++ ['m', 'i', 'n']) = 30 ∧
    parse_duration_str (d ++ ['h', 'r']) = 30 ∧
    (∀ t : List Char, endsWith ['s'] t = false → endsWith ['m', 'i', 'n'] t = false →
      endsWith ['m'] t = false → endsWith ['h', 'r'] t = false →
      endsWith ['h'] t = false →
      parse_duration t = Except.error "Invalid duration format" ∧
      parse_duration_str t = 30) := by
  obtain ⟨c', hlast, hc'⟩ := digits_getLast d hd hdig
  have hp : parseU64 d = some (digitVal d) := parseU64_digits d hd hdig hv
  have hne : ∀ (c : Char), c.isDigit = false → c ≠ c' := by
    intro c hc h
    rw [h, hc'] at hc
    cases hc
  have hnd : ∀ (c : Char), c.isDigit = false → dropSuffixQ [c] d = none := fun c hc =>
    dropSuffixQ_none_of_getLast [c] d c c' rfl hlast (hne c hc)
  have hndmin : dropSuffixQ ['m', 'i', 'n'] d = none :=
    dropSuffixQ_none_of_getLast _ d 'n' c' rfl hlast (hne 'n' (by decide))
  have hndhr : dropSuffixQ ['h', 'r'] d = none :=
    dropSuffixQ_none_of_getLast _ d 'r' c' rfl hlast (hne 'r' (by decide))
  have hL1 : ∀ (c : Char), (d ++ [c]).getLast? = some c := fun c => List.getLast?_concat d
  have hLmin : (d ++ ['m', 'i', 'n']).getLast? = some 'n' := by
    rw [show d ++ ['m', 'i', 'n'] = (d ++ ['m', 'i']) ++ ['n'] by simp]
    exact List.getLast?_concat _
  have hLhr : (d ++ ['h', 'r']).getLast? = some 'r' := by
    rw [show d ++ ['h', 'r'] = (d ++ ['h']) ++ ['r'] by simp]
    exact List.getLast?_concat _
  have eSm : endsWith ['s'] (d ++ ['m']) = false :=
    endsWith_false_of_getLast _ _ 's' 'm' rfl (hL1 'm') (by decide)
  have eMINm : endsWith ['m', 'i', 'n'] (d ++ ['m']) = false :=
    endsWith_false_of_getLast _ _ 'n' 'm' rfl (hL1 'm') (by decide)
  have eSmin : endsWith ['s'] (d ++ ['m', 'i', 'n']) = false :=
    endsWith_false_of_getLast _ _ 's' 'n' rfl hLmin (by decide)
  have eMmin : endsWith ['m'] (d ++ ['m', 'i', 'n']) = false :=
    endsWith_false_of_getLast _ _ 'm' 'n' rfl hLmin (by decide)
  have eHmin : endsWith ['h'] (d ++ ['m', 'i', 'n']) = false :=
    endsWith_false_of_getLast _ _ 'h' 'n' rfl hLmin (by decide)
  have eSh : endsWith ['s'] (d ++ ['h']) = false :=
    endsWith_false_of_getLast _ _ 's' 'h' rfl (hL1 'h') (by decide)
  have eMINh : endsWith ['m', 'i', 'n'] (d ++ ['h']) = false :=
    endsWith_false_of_getLast _ _ 'n' 'h' rfl (hL1 'h') (by decide)
  have eMh : endsWith ['m'] (d ++ ['h']) = false :=
    endsWith_false_of_getLast _ _ 'm' 'h' rfl (hL1 'h') (by decide)
  have eShr : endsWith ['s'] (d ++ ['h', 'r']) = false :=
    endsWith_false_of_getLast _ _ 's' 'r' rfl hLhr (by decide)
  have eMINhr : endsWith ['m', 'i', 'n'] (d ++ ['h', 'r']) = false :=
    endsWith_false_of_getLast _ _ 'n' 'r' rfl hLhr (by decide)
  have eMhr : endsWith ['m'] (d ++ ['h', 'r']) = false :=
    endsWith_false_of_getLast _ _ 'm' 'r' rfl hLhr (by decide)
  have eHhr : endsWith ['h'] (d ++ ['h', 'r']) = false :=
    endsWith_false_of_getLast _ _ 'h' 'r' rfl hLhr (by decide)
  have cOrM : (endsWith ['m', 'i', 'n'] (d ++ ['m']) || endsWith ['m'] (d ++ ['m'])) =
      true := by
    rw [endsWith_append_true ['m'] d, Bool.or_true]
  have cOrMIN : (endsWith ['m', 'i', 'n'] (d ++ ['m', 'i', 'n']) ||
      endsWith ['m'] (d ++ ['m', 'i', 'n'])) = true := by
    rw [endsWith_append_true ['m', 'i', 'n'] d, Bool.true_or]
  have cOrMfalse_h : (endsWith ['m', 'i', 'n'] (d ++ ['h']) ||
      endsWith ['m'] (d ++ ['h'])) = false := by
    rw [eMINh, Bool.false_or, eMh]
  have cOrH : (endsWith ['h', 'r'] (d ++ ['h']) || endsWith ['h'] (d ++ ['h'])) =
      true := by
    rw [endsWith_append_true ['h'] d, Bool.or_true]
  have cOrMfalse_hr : (endsWith ['m', 'i', 'n'] (d ++ ['h', 'r']) ||
      endsWith ['m'] (d ++ ['h', 'r'])) = false := by
    rw [eMINhr, Bool.false_or, eMhr]
  have cOrHR : (endsWith ['h', 'r'] (d ++ ['h', 'r']) ||
      endsWith ['h'] (d ++ ['h', 'r'])) = true := by
    rw [endsWith_append_true ['h', 'r'] d, Bool.true_or]
  have tMINm : trimEndMatches ['m', 'i', 'n'] (d ++ ['m']) = d ++ ['m'] :=
    trimEndMatches_id _ _ (dropSuffixQ_none_of_getLast _ _ 'n' 'm' rfl (hL1 'm') (by decide))
  have tHRh : trimEndMatches ['h', 'r'] (d ++ ['h']) = d ++ ['h'] :=
    trimEndMatches_id _ _ (dropSuffixQ_none_of_getLast _ _ 'r' 'h' rfl (hL1 'h') (by decide))
  refine ⟨?_, ?_, ?_, ?_, ?_, ?_, ?_, ?_, ?_, ?_, ?_⟩
  · unfold parse_duration
    rw [if_pos (endsWith_append_true ['s'] d),
      trimEndMatches_append ['s'] d (by decide) (hnd 's' (by decide)), hp]
  · unfold parse_duration
    rw [if_neg (bool_ne_true eSm), if_pos cOrM, tMINm,
      trimEndMatches_append ['m'] d (by decide) (hnd 'm' (by decide)), hp]
  · unfold parse_duration
    rw [if_neg (bool_ne_true eSmin), if_pos cOrMIN,
      trimEndMatches_append ['m', 'i', 'n'] d (by decide) hndmin,
      trimEndMatches_id ['m'] d (hnd 'm' (by decide)), hp]
  · unfold parse_duration
    rw [if_neg (bool_ne_true eSh), if_neg (bool_ne_true cOrMfalse_h), if_pos cOrH, tHRh,
      trimEndMatches_append ['h'] d (by decide) (hnd 'h' (by decide)), hp]
  · unfold parse_duration
    rw [if_neg (bool_ne_true eShr), if_neg (bool_ne_true cOrMfalse_hr), if_pos cOrHR,
      trimEndMatches_append ['h', 'r'] d (by decide) hndhr,
      trimEndMatches_id ['h'] d (hnd 'h' (by decide)), hp]
  · unfold parse_duration_str
    rw [if_pos (endsWith_append_true ['s'] d),
      trimEndMatches_append ['s'] d (by decide) (hnd 's' (by decide)), hp]
  · unfold parse_duration_str
    rw [if_neg (bool_ne_true eSm), if_pos (endsWith_append_true ['m'] d),
      trimEndMatches_append ['m'] d (by decide) (hnd 'm' (by decide)), hp]
  · unfold parse_duration_str
    rw [if_neg (bool_ne_true eSh), if_neg (bool_ne_true eMh),
      if_pos (endsWith_append_true ['h'] d),
      trimEndMatches_append ['h'] d (by decide) (hnd 'h' (by decide)), hp]
  · unfold parse_duration_str
    rw [if_neg (bool_ne_true eSmin), if_neg (bool_ne_true eMmin),
      if_neg (bool_ne_true eHmin)]
  · unfold parse_duration_str
    rw [if_neg (bool_ne_true eShr), if_neg (bool_ne_true eMhr),
      if_neg (bool_ne_true eHhr)]
  · intro t h1 h2 h3 h4 h5
    have hor1 : (endsWith ['m', 'i', 'n'] t || endsWith ['m'] t) = false := by
      rw [h2, Bool.false_or, h3]
    have hor2 : (endsWith ['h', 'r'] t || endsWith ['h'] t) = false := by
      rw [h4, Bool.false_or, h5]
    constructor
    · unfold parse_duration
      rw [if_neg (bool_ne_true h1), if_neg (bool_ne_true hor1),
        if_neg (bool_ne_true hor2)]
    · unfold parse_duration_str
      rw [if_neg (bool_ne_true h1), if_neg (bool_ne_true h3),
        if_neg (bool_ne_true h5)]

/-- Witness for C8 at the digit string "42" and the malformed string
"5x". -/
theorem duration_parsers_spec_witness :
    parse_duration (['4', '2'] ++ ['m', 'i', 'n']) =
      Except.ok (digitVal ['4', '2'] * 60) ∧
    parse_duration_str (['4', '2'] ++ ['m', 'i', 'n']) = 30 ∧
    parse_duration ['5', 'x'] = Except.error "Invalid duration format" := by
  obtain ⟨e1, e2, e3, e4, e5, f1, f2, f3, f4, f5, hrej⟩ :=
    duration_parsers_spec ['4', '2'] (by decide) (by decide) (by decide)
  exact ⟨e3, f4,
    (hrej ['5', 'x'] (by decide) (by decide) (by decide) (by decide) (by decide)).1⟩

/-- C8 counterexample: the healthcheck parser maps "5min" to the
30-second default, not to 5 minutes, and maps the unrecognised "5x" to
the same default instead of rejecting it. -/
theorem duration_parser_counterexample :
    parse_duration_str ['5', 'm', 'i', 'n'] = 30 ∧
    (30 : Nat) ≠ 5 * 60 ∧
    parse_duration_str ['5', 'x'] = 30 :=
  ⟨by decide, by decide, by decide⟩

/-! ## Log rotation (src/logging/mod.rs `LogManager::maybe_rotate`,
lines 93-126)

`maybe_rotate` reads only the current file's existence and byte length
and renames/deletes the numbered `.N` siblings wholesale, so files are
modelled as an abstract `LogFile` (length + identity tag) and the
directory as the current file plus a partial map from sibling index to
file. -/

structure LogFile where
  len : Nat
  tag : Nat
  deriving Repr, DecidableEq

structure LogDirState where
  cur : Option LogFile
  sibs : List (Nat × LogFile)
  deriving Repr, DecidableEq

/-- Does `path.i` exist, and with which contents? -/
def getSib (sibs : List (Nat × LogFile)) (i : Nat) : Option LogFile :=
  (sibs.find? (fun e => e.1 = i)).map Prod.snd

/-- `fs::remove_file(path.i)` (also used to model rename clobbering). -/
def delSib (sibs : List (Nat × LogFile)) (i : Nat) : List (Nat × LogFile) :=
  sibs.filter (fun e => ¬ e.1 = i)

/-- Place contents at `path.i`, clobbering any previous file. -/
def setSib (sibs : List (Nat × LogFile)) (i : Nat) (f : LogFile) :
    List (Nat × LogFile) :=
  (i, f) :: delSib sibs i

/-- `if Path::new(&old).exists() { fs::rename(old, new) }` for
`old = path.i`, `new = path.j`. -/
def renameSib (sibs : List (Nat × LogFile)) (i j : Nat) : List (Nat × LogFile) :=
  match getSib sibs i with
  | some f => setSib (delSib sibs i) j f
  | none => sibs

/-- The `for i in (1..max_files).rev()` rename loop, recursing from the
starting index `max_files - 1` down to 1: each step renames `.i` to
`.(i+1)` when `.i` exists. -/
def rotationLoop (sibs : List (Nat × LogFile)) : Nat → List (Nat × LogFile)
  | 0 => sibs
  | i + 1 => rotationLoop (renameSib sibs (i + 1) (i + 2)) i

/-- `LogManager::maybe_rotate` for one log file: nothing happens when
the file is absent or its length is below `max_size`; otherwise the
siblings shift up, the current file becomes `.1`, a fresh empty file
(`tag 0`) replaces it, and `.{max_files+1}` is deleted. -/
def maybe_rotate (max_size max_files : Nat) (fs : LogDirState) : LogDirState :=
  match fs.cur with
  | none => fs
  | some f =>
      if f.len < max_size then fs
      else
        let sibs1 := rotationLoop fs.sibs (max_files - 1)
        let sibs2 := setSib sibs1 1 f
        let sibs3 := delSib sibs2 (max_files + 1)
        { cur := some ⟨0, 0⟩, sibs := sibs3 }

/-! ### Sibling-map lemmas -/

theorem getSib_setSib_self (sibs : List (Nat × LogFile)) (i : Nat) (f : LogFile) :
    getSib (setSib sibs i f) i = some f := by
  unfold getSib setSib
  rw [List.find?_cons, decide_eq_true rfl]
  rfl

theorem getSib_delSib_self (sibs : List (Nat × LogFile)) (i : Nat) :
    getSib (delSib sibs i) i = none := by
  unfold getSib delSib
  induction sibs with
  | nil => rfl
  | cons e rest ih =>
    rw [List.filter_cons]
    by_cases he : e.1 = i
    · have : (decide (¬ e.1 = i)) = false := decide_eq_false (fun h => h he)
      rw [this]
      simp only [Bool.false_eq_true, if_false]
      exact ih
    · have : (decide (¬ e.1 = i)) = true := decide_eq_true he
      rw [this, if_pos rfl, List.find?_cons, decide_eq_false he]
      exact ih

theorem getSib_delSib_ne (sibs : List (Nat × LogFile)) (i l : Nat) (hne : l ≠ i) :
    getSib (delSib sibs i) l = getSib sibs l := by
  unfold getSib delSib
  induction sibs with
  | nil => rfl
  | cons e rest ih =>
    rw [List.filter_cons]
    by_cases he : e.1 = i
    · have hd : (decide (¬ e.1 = i)) = false := decide_eq_false (fun h => h he)
      rw [hd]
      simp only [Bool.false_eq_true, if_false]
      rw [List.find?_cons, decide_eq_false (fun h : e.1 = l => hne (h ▸ he ▸ rfl))]
      exact ih
    · have hd : (decide (¬ e.1 = i)) = true := decide_eq_true he
      rw [hd, if_pos rfl, List.find?_cons, List.find?_cons]
      by_cases hl : e.1 = l
      · rw [decide_eq_true hl]
      · rw [decide_eq_false hl]
        exact ih

theorem getSib_setSib_ne (sibs : List (Nat × LogFile)) (i l : Nat) (f : LogFile)
    (hne : l ≠ i) : getSib (setSib sibs i f) l = getSib sibs l := by
  unfold setSib
  show getSib ((i, f) :: delSib sibs i) l = _
  unfold getSib
  rw [List.find?_cons, decide_eq_false (fun h : (i, f).1 = l => hne h.symm)]
  exact getSib_delSib_ne sibs i l hne

theorem renameSib_src (sibs : List (Nat × LogFile)) (i j : Nat) (hij : i ≠ j) :
    getSib (renameSib sibs i j) i = none := by
  unfold renameSib
  match hg : getSib sibs i with
  | some f =>
    rw [getSib_setSib_ne _ j i f hij]
    exact getSib_delSib_self sibs i
  | none => exact hg

theorem renameSib_target (sibs : List (Nat × LogFile)) (i j : Nat) :
    getSib (renameSib sibs i j) j = (getSib sibs i).or (getSib sibs j) := by
  unfold renameSib
  match hg : getSib sibs i with
  | some f => rw [getSib_setSib_self]; rfl
  | none => rw [Option.none_or]

theorem renameSib_other (sibs : List (Nat × LogFile)) (i j l : Nat)
    (hl1 : l ≠ i) (hl2 : l ≠ j) :
    getSib (renameSib sibs i j) l = getSib sibs l := by
  unfold renameSib
  match hg : getSib sibs i with
  | some f =>
    rw [getSib_setSib_ne _ j l f hl2]
    exact getSib_delSib_ne sibs i l hl1
  | none => rfl

/-! ### Rotation-loop characterisation -/

theorem rotationLoop_high (k : Nat) (sibs : List (Nat × LogFile)) (j : Nat)
    (hj : k + 2 ≤ j) : getSib (rotationLoop sibs k) j = getSib sibs j := by
  induction k generalizing sibs with
  | zero => rfl
  | succ k ih =>
    unfold rotationLoop
    rw [ih _ (by omega)]
    exact renameSib_other sibs (k + 1) (k + 2) j (by omega) (by omega)

theorem rotationLoop_top (k : Nat) (sibs : List (Nat × LogFile)) (hk : 1 ≤ k) :
    getSib (rotationLoop sibs k) (k + 1) =
      (getSib sibs k).or (getSib sibs (k + 1)) := by
  induction k generalizing sibs with
  | zero => omega
  | succ k ih =>
    unfold rotationLoop
    rw [rotationLoop_high k _ (k + 2) (Nat.le_refl _)]
    exact renameSib_target sibs (k + 1) (k + 2)

theorem rotationLoop_one (k : Nat) (sibs : List (Nat × LogFile)) (hk : 1 ≤ k) :
    getSib (rotationLoop sibs k) 1 = none := by
  induction k generalizing sibs with
  | zero => omega
  | succ k ih =>
    unfold rotationLoop
    match k with
    | 0 =>
      show getSib (renameSib sibs 1 2) 1 = none
      exact renameSib_src sibs 1 2 (by omega)
    | k' + 1 => exact ih _ (by omega)

theorem rotationLoop_mid (k : Nat) (sibs : List (Nat × LogFile)) (j : Nat)
    (hj2 : 2 ≤ j) (hjk : j ≤ k) :
    getSib (rotationLoop sibs k) j = getSib sibs (j - 1) := by
  induction k generalizing sibs with
  | zero => omega
  | succ k ih =>
    unfold rotationLoop
    by_cases hje : j = k + 1
    · subst hje
      have hk1 : 1 ≤ k := by omega
      rw [rotationLoop_top k _ hk1]
      have h1 : getSib (renameSib sibs (k + 1) (k + 2)) k = getSib sibs k :=
        renameSib_other sibs (k + 1) (k + 2) k (by omega) (by omega)
      have h2 : getSib (renameSib sibs (k + 1) (k + 2)) (k + 1) = none :=
        renameSib_src sibs (k + 1) (k + 2) (by omega)
      rw [h1, h2, Option.or_none]
      have hkk : k + 1 - 1 = k := by omega
      rw [hkk]
    · have hjk' : j ≤ k := by omega
      rw [ih _ hjk']
      exact renameSib_other sibs (k + 1) (k + 2) (j - 1) (by omega) (by omega)

/-- C9 (amended): `maybe_rotate` leaves the log file untouched when its
size is **below** `max_size` (amendment 1: the original claim said
"unless its size exceeds `max_size`", but the code rotates already at
size exactly `max_size` — the guard is `len < max_size`).  When the size
reaches `max_size`: the `.N` siblings are renamed `N → N+1` downward
from `N = max_files − 1` (so `.j` afterwards holds the old `.j−1` for
`2 ≤ j ≤ max_files−1`, and `.max_files` holds the old `.max_files−1`
when that existed, else keeps its old content — the old `.max_files` is
never renamed away), the current file is renamed to `.1`, a fresh empty
file replaces it, and `.{max_files+1}` is deleted.  Amendment 2:
siblings with index ≥ `max_files+2` are untouched, so a pre-existing
sibling above `max_files+1` still exists afterwards; only index
`max_files+1` is guaranteed absent. -/
theorem maybe_rotate_spec (max_size max_files : Nat) (fs : LogDirState) (f : LogFile)
    (hcur : fs.cur = some f) (hmf : 2 ≤ max_files) :
    (f.len < max_size → maybe_rotate max_size max_files fs = fs) ∧
    (max_size ≤ f.len →
      (maybe_rotate max_size max_files fs).cur = some ⟨0, 0⟩ ∧
      getSib (maybe_rotate max_size max_files fs).sibs 1 = some f ∧
      (∀ j, 2 ≤ j → j ≤ max_files - 1 →
        getSib (maybe_rotate max_size max_files fs).sibs j = getSib fs.sibs (j - 1)) ∧
      getSib (maybe_rotate max_size max_files fs).sibs max_files =
        (getSib fs.sibs (max_files - 1)).or (getSib fs.sibs max_files) ∧
      getSib (maybe_rotate max_size max_files fs).sibs (max_files + 1) = none ∧
      (∀ j, max_files + 2 ≤ j →
        getSib (maybe_rotate max_size max_files fs).sibs j = getSib fs.sibs j)) := by
  obtain ⟨k, hk⟩ : ∃ k, max_files = k + 1 := ⟨max_files - 1, by omega⟩
  subst hk
  have hk1 : 1 ≤ k := by omega
  have hkk : k + 1 - 1 = k := by omega
  constructor
  · intro hlt
    simp only [maybe_rotate, hcur]
    rw [if_pos hlt]
  · intro hge
    have hnotlt : ¬ (f.len < max_size) := by omega
    simp only [maybe_rotate, hcur, if_neg hnotlt, hkk]
    refine ⟨trivial, ?_, ?_, ?_, ?_, ?_⟩
    · rw [getSib_delSib_ne _ _ _ (by omega), getSib_setSib_self]
    · intro j hj2 hjk
      rw [getSib_delSib_ne _ _ _ (by omega), getSib_setSib_ne _ _ _ _ (by omega),
        rotationLoop_mid k fs.sibs j hj2 (by omega)]
    · rw [getSib_delSib_ne _ _ _ (by omega), getSib_setSib_ne _ _ _ _ (by omega),
        rotationLoop_top k fs.sibs hk1]
    · exact getSib_delSib_self _ _
    · intro j hj
      rw [getSib_delSib_ne _ _ _ (by omega), getSib_setSib_ne _ _ _ _ (by omega),
        rotationLoop_high k fs.sibs j (by omega)]

/-- A directory whose current log file has length exactly `max_size = 4`
and which carries a stray rotated sibling `.7`. -/
def rotCounterState : LogDirState where
  cur := some ⟨4, 1⟩
  sibs := [(7, ⟨9, 2⟩)]

/-- C9 counterexample: with `max_size = 4`, `max_files = 5`, a current
file of size exactly 4 — *not exceeding* `max_size` — is rotated anyway,
and the stray sibling `.7` (index above `max_files`) still exists
afterwards. -/
theorem maybe_rotate_counterexample :
    rotCounterState.cur = some ⟨4, 1⟩ ∧
    maybe_rotate 4 5 rotCounterState ≠ rotCounterState ∧
    getSib (maybe_rotate 4 5 rotCounterState).sibs 7 = some ⟨9, 2⟩ :=
  ⟨rfl, by decide, by decide⟩

/-- A directory with an over-sized current file and one rotated sibling. -/
def rotWitnessState : LogDirState where
  cur := some ⟨10, 3⟩
  sibs := [(1, ⟨5, 4⟩)]

/-- Witness for C9 at `max_size = 10`, `max_files = 5` on
`rotWitnessState`: the current file becomes `.1`, the old `.1` becomes
`.2`, and `.6` is absent. -/
theorem maybe_rotate_spec_witness :
    (maybe_rotate 10 5 rotWitnessState).cur = some ⟨0, 0⟩ ∧
    getSib (maybe_rotate 10 5 rotWitnessState).sibs 1 = some ⟨10, 3⟩ ∧
    getSib (maybe_rotate 10 5 rotWitnessState).sibs 2 = getSib rotWitnessState.sibs 1 ∧
    getSib (maybe_rotate 10 5 rotWitnessState).sibs 6 = none := by
  obtain ⟨hu, hr⟩ := maybe_rotate_spec 10 5 rotWitnessState ⟨10, 3⟩ rfl (by decide)
  obtain ⟨c1, c2, cmid, ctop, cdel, chigh⟩ := hr (by decide)
  exact ⟨c1, c2, cmid 2 (by decide) (by decide), cdel⟩

end BPM

/-! Executable sanity examples. -/

example : BPM.CHUNK_PAYLOAD_CAPACITY = 4071 := by decide

example : BPM.chunksOf 2 [1, 2, 3, 4, 5] = [[1, 2], [3, 4], [5]] := by decide

example :
    BPM.request_server (BPM.send_response [1, 2, 3] BPM.CHUNK_PAYLOAD_CAPACITY) =
      some [1, 2, 3] := by decide

example : BPM.send_response [] 5 = [] := by decide

example : BPM.decode_payload (BPM.encode_payload [97, 0, 98]) = [97] := by decide
